import Mathlib

/-!
# Verification of `create_longest_substring` (src/src/lib.rs)

Shallow embedding of the longest-balanced-span scanner.  The input string is
modelled as a `List Char`.  Rust's `val.len()` (the UTF-8 byte length) is
`byteLen`; the cyclic character stream `val.chars().cycle()` is `cyclicChar`.
The scan loop `for (index, char) in val.chars().cycle().take(2 * val.len()).enumerate()`
is `runFrom` driven by the per-iteration body `step`; `break` is `StepRes.brk`,
`return Ok("Infinite")` is `StepRes.inf`, `return Err(NonByteChar)` is
`StepRes.nonByte`.

Two deliberate modelling notes, each justified by a theorem below:
* the final slices `&val[a..b]` are byte slices in Rust; the model slices by
  character index.  On every path that reaches the slicing code all characters
  are single-byte (`runScan_nonByte_of_multibyte`), where byte and character
  indices coincide.
* Rust's `usize` subtraction panics on underflow and slicing panics out of
  bounds; the model uses truncated `Nat` subtraction and truncating
  `List.drop`/`List.take`.  The bounds `max_len ≤ max_end ≤ 2·len` and
  (in the wrap case) `max_end − max_len ≤ len` proved below show the Rust
  code never hits those panics, so the two semantics agree on all inputs.
-/

namespace Couscous

/-- `fn is_bracket(val: char) -> bool` from src/src/lib.rs. -/
def is_bracket (c : Char) : Bool :=
  match c with
  | '{' | '[' | '(' | ')' | ']' | '}' => true
  | _ => false

/-- `fn opening_bracket_to_closing(val: char) -> Option<char>` from src/src/lib.rs. -/
def opening_bracket_to_closing (c : Char) : Option Char :=
  match c with
  | '{' => some '}'
  | '[' => some ']'
  | '(' => some ')'
  | _ => none

/-- `enum Error` from src/src/lib.rs. -/
inductive Error where
  | NonByteChar
  deriving DecidableEq, Repr

/-- `struct CharPos { val: char, index: usize }` from src/src/lib.rs. -/
structure CharPos where
  val : Char
  index : Nat
  deriving DecidableEq, Repr

/-- Rust `char::len_utf8`. -/
def lenUtf8 (c : Char) : Nat :=
  if c.toNat < 0x80 then 1 else if c.toNat < 0x800 then 2
  else if c.toNat < 0x10000 then 3 else 4

/-- Rust `char::len_utf16` (code units). -/
def lenUtf16 (c : Char) : Nat :=
  if c.toNat < 0x10000 then 1 else 2

/-- Rust `str::len`: the UTF-8 byte length of the string. -/
def byteLen (val : List Char) : Nat := (val.map lenUtf8).sum

/-- Character at unwrapped index `i` of the cyclic stream `val.chars().cycle()`.
Only evaluated for nonempty `val` (the loop body never runs otherwise). -/
def cyclicChar (val : List Char) (i : Nat) : Char := val.getD (i % val.length) 'A'

/-- The mutable locals of `create_longest_substring`: the pending-opens stack
(Vec order: bottom first, top last) and the three scalars. -/
structure ScanState where
  brackets : List CharPos
  max_end : Nat
  max_len : Nat
  prev_valid_len : Nat
  deriving Repr, DecidableEq

/-- All state starts at empty/zero. -/
def scanInit : ScanState := ⟨[], 0, 0, 0⟩

/-- Outcome of one loop iteration: continue, `break`, early `return Ok("Infinite")`,
or early `return Err(NonByteChar)`. -/
inductive StepRes where
  | cont (s : ScanState)
  | brk (s : ScanState)
  | inf
  | nonByte
  deriving Repr, DecidableEq

/-- The `if let Some(len) = … { if len > max_len { … } if brackets.is_empty() { … } }`
block at the end of the loop body, applied when a candidate length was computed. -/
def applyLen (n i : Nat) (s : ScanState) (len : Nat) : StepRes :=
  if s.max_len < len ∧ n ≤ len then .inf
  else
    let s1 := if s.max_len < len then { s with max_len := len, max_end := i + 1 } else s
    .cont (if s1.brackets.isEmpty then { s1 with prev_valid_len := len } else s1)

/-- The `None` arm of the closing-bracket match: `prev_valid_len = 0; brackets.truncate(0)`. -/
def mismatchReset (s : ScanState) : ScanState :=
  { s with brackets := [], prev_valid_len := 0 }

/-- One iteration of the scan loop, character at unwrapped index `i`. -/
def step (val : List Char) (i : Nat) (s : ScanState) : StepRes :=
  let n := byteLen val
  let ch := cyclicChar val i
  if 1 < lenUtf8 ch ∨ 1 < lenUtf16 ch then .nonByte
  else if is_bracket ch then
    match opening_bracket_to_closing ch with
    | some bracket =>
      if (n ≤ i ∧ ((s.brackets.head?.map (fun c => c.index == i - n)).getD false))
          ∨ s.brackets.length + 1 = n then
        .brk s
      else
        .cont { s with brackets := s.brackets ++ [⟨bracket, i⟩] }
    | none =>
      match s.brackets.getLast? with
      | none =>
        if n ≤ i then .brk (mismatchReset s) else .cont (mismatchReset s)
      | some last =>
        let s' := { s with brackets := s.brackets.dropLast }
        if last.val = ch then
          let len :=
            match s'.brackets.getLast? with
            | some prev => i - prev.index
            | none => 1 + i - last.index + s'.prev_valid_len
          applyLen n i s' len
        else
          if n ≤ i then .brk (mismatchReset s') else .cont (mismatchReset s')
  else
    let len :=
      match s.brackets.getLast? with
      | some prev => i - prev.index
      | none => s.prev_valid_len + 1
    applyLen n i s len

/-- Result of running the scan loop to completion. -/
inductive ScanRes where
  | finished (s : ScanState)
  | infinite
  | nonByte
  deriving Repr, DecidableEq

/-- Remaining iterations of the loop, with `fuel` iterations left, starting at
unwrapped index `i`. -/
def runFrom (val : List Char) : Nat → Nat → ScanState → ScanRes
  | 0, _, s => .finished s
  | fuel + 1, i, s =>
    match step val i s with
    | .cont s' => runFrom val fuel (i + 1) s'
    | .brk s' => .finished s'
    | .inf => .infinite
    | .nonByte => .nonByte

/-- The whole scan loop: `2 * val.len()` iterations from the initial state. -/
def runScan (val : List Char) : ScanRes := runFrom val (2 * byteLen val) 0 scanInit

/-- `pub fn create_longest_substring(val: &str) -> Result<String, Error>`. -/
def create_longest_substring (val : List Char) : Except Error (List Char) :=
  match runScan val with
  | .nonByte => .error .NonByteChar
  | .infinite => .ok "Infinite".toList
  | .finished s =>
    .ok (if byteLen val < s.max_end then
          val.drop (s.max_end - s.max_len) ++ val.take (s.max_end - byteLen val)
        else
          (val.drop (s.max_end - s.max_len)).take s.max_len)

/-! ## Specification-side definitions

The glossary's balanced/valid predicate, operationalized as a stack machine:
`process l st` runs over `l` with a stack `st` of expected closing characters
and returns the final stack, or `none` on an unmatched or mismatched closer.
A list is balanced when processing from the empty stack ends on the empty
stack (every closer matches the most recent pending opener and every opener
is closed). -/

def process : List Char → List Char → Option (List Char)
  | [], st => some st
  | c :: rest, st =>
    match opening_bracket_to_closing c with
    | some b => process rest (b :: st)
    | none =>
      if is_bracket c then
        match st with
        | b :: st' => if b = c then process rest st' else none
        | [] => none
      else process rest st

/-- Balanced/valid span: processing ends with an empty stack. -/
def balancedB (l : List Char) : Bool := process l [] == some []

/-- The contiguous span of the cyclic reading of `val` starting at unwrapped
index `s`, of length `L`. -/
def spanAt (val : List Char) (s L : Nat) : List Char :=
  (List.range L).map (fun k => cyclicChar val (s + k))

/-- The half-open unwrapped index interval `[u, v)` of the cyclic reading is a
balanced/valid span. -/
def validRun (val : List Char) (u v : Nat) : Prop :=
  balancedB (spanAt val u (v - u)) = true

instance (val : List Char) (u v : Nat) : Decidable (validRun val u v) := by
  unfold validRun; infer_instance


/-! ## Character classification lemmas -/

theorem opening_none_of_not_bracket {c : Char} (h : is_bracket c = false) :
    opening_bracket_to_closing c = none := by
  unfold opening_bracket_to_closing
  split
  · exact absurd h (by decide)
  · exact absurd h (by decide)
  · exact absurd h (by decide)
  · rfl

theorem opening_cases {c b : Char} (h : opening_bracket_to_closing c = some b) :
    (c = '{' ∧ b = '}') ∨ (c = '[' ∧ b = ']') ∨ (c = '(' ∧ b = ')') := by
  unfold opening_bracket_to_closing at h
  split at h
  · exact Or.inl ⟨rfl, (Option.some_inj.mp h).symm⟩
  · exact Or.inr (Or.inl ⟨rfl, (Option.some_inj.mp h).symm⟩)
  · exact Or.inr (Or.inr ⟨rfl, (Option.some_inj.mp h).symm⟩)
  · exact absurd h (by simp)

theorem is_bracket_of_opening {c b : Char} (h : opening_bracket_to_closing c = some b) :
    is_bracket c = true := by
  rcases opening_cases h with ⟨rfl, _⟩ | ⟨rfl, _⟩ | ⟨rfl, _⟩ <;> decide

theorem closer_cases {c : Char} (hb : is_bracket c = true)
    (hn : opening_bracket_to_closing c = none) : c = ')' ∨ c = ']' ∨ c = '}' := by
  unfold is_bracket at hb
  split at hb
  · exact absurd hn (by decide)
  · exact absurd hn (by decide)
  · exact absurd hn (by decide)
  · exact Or.inl rfl
  · exact Or.inr (Or.inl rfl)
  · exact Or.inr (Or.inr rfl)
  · exact absurd hb (by decide)

theorem lenUtf8_pos (c : Char) : 1 ≤ lenUtf8 c := by
  unfold lenUtf8; split_ifs <;> omega

theorem lenUtf16_one_of_utf8 {c : Char} (h : lenUtf8 c = 1) : lenUtf16 c = 1 := by
  unfold lenUtf8 at h
  unfold lenUtf16
  split_ifs at h ⊢ <;> omega

theorem byte_check_false {c : Char} (h : lenUtf8 c = 1) :
    (1 < lenUtf8 c ∨ 1 < lenUtf16 c) = False := by
  simp [h, lenUtf16_one_of_utf8 h]

theorem lenUtf8_bracket {c : Char} (h : is_bracket c = true) : lenUtf8 c = 1 := by
  unfold is_bracket at h
  split at h
  · decide
  · decide
  · decide
  · decide
  · decide
  · decide
  · exact absurd h (by decide)

/-! ## Basic lemmas about `process` -/

theorem process_append (xs ys : List Char) (st : List Char) :
    process (xs ++ ys) st = (process xs st).bind (fun st' => process ys st') := by
  induction xs generalizing st with
  | nil => simp [process]
  | cons c rest ih =>
    simp only [List.cons_append, process]
    rcases h : opening_bracket_to_closing c with _ | b
    · by_cases hb : is_bracket c
      · simp only [hb, if_true]
        rcases st with _ | ⟨b', st'⟩
        · simp
        · by_cases hbe : b' = c
          · simp [hbe, ih]
          · simp [hbe]
      · simp [hb, ih]
    · simp [ih]

/-- Frame: a computation that succeeds from stack `st` never underflows, so it
runs identically with anything appended below the stack. -/
theorem process_frame (xs : List Char) (st st' ext : List Char)
    (h : process xs st = some st') : process xs (st ++ ext) = some (st' ++ ext) := by
  induction xs generalizing st with
  | nil =>
    simp only [process, Option.some_inj] at h
    simp [process, h]
  | cons c rest ih =>
    simp only [process] at h ⊢
    rcases hc : opening_bracket_to_closing c with _ | b
    · simp only [hc] at h ⊢
      by_cases hb : is_bracket c
      · simp only [hb, if_true] at h ⊢
        rcases st with _ | ⟨b', stt⟩
        · cases h
        · by_cases hbe : b' = c
          · simp only [hbe, if_pos rfl] at h
            simp only [List.cons_append]
            rw [if_pos hbe]
            exact ih stt h
          · simp [hbe] at h
      · simp only [hb, if_false] at h ⊢
        exact ih st h
    · simp only [hc] at h ⊢
      exact ih (b :: st) h

/-- A balanced list is transparent: processing it from any stack returns that
stack unchanged. -/
theorem process_of_balanced {B : List Char} (h : balancedB B = true) (st : List Char) :
    process B st = some st := by
  have h0 : process B [] = some [] := by
    simpa [balancedB] using h
  simpa using process_frame B [] [] st h0

theorem balancedB_append {A B : List Char} (hA : balancedB A = true)
    (hB : balancedB B = true) : balancedB (A ++ B) = true := by
  have hA' : process A [] = some [] := by simpa [balancedB] using hA
  have hB' : process B [] = some [] := by simpa [balancedB] using hB
  simp [balancedB, process_append, hA', hB']

/-- A character that is not a bracket leaves the stack alone. -/
theorem process_filler {c : Char} (h : is_bracket c = false) (rest st : List Char) :
    process (c :: rest) st = process rest st := by
  simp [process, opening_none_of_not_bracket h, h]

/-- Appending a non-bracket filler character preserves balancedness, in both
directions. -/
theorem balancedB_append_filler {l : List Char} {c : Char} (h : is_bracket c = false) :
    balancedB (l ++ [c]) = balancedB l := by
  have hcol : (process l []).bind (fun st' => process [c] st') = process l [] := by
    cases hp : process l [] with
    | none => rfl
    | some st => rw [Option.some_bind, process_filler h]; rfl
  rw [balancedB, process_append, hcol]; rfl

/-- A list ending in an opening bracket is not balanced. -/
theorem not_balancedB_append_opening {l : List Char} {c b : Char}
    (h : opening_bracket_to_closing c = some b) : balancedB (l ++ [c]) = false := by
  simp only [balancedB, process_append]
  rcases hp : process l [] with _ | st
  · rfl
  · simp [process, h]

/-- An adjacent `(` `]`-style mismatched pair poisons any list containing it. -/
theorem not_balancedB_open_close_mismatch {A B : List Char} {o c b : Char}
    (ho : opening_bracket_to_closing o = some b)
    (hc : is_bracket c = true) (hcc : opening_bracket_to_closing c = none)
    (hne : b ≠ c) : balancedB (A ++ o :: c :: B) = false := by
  simp only [balancedB, process_append]
  rcases hp : process A [] with _ | st
  · rfl
  · simp [process, ho, hcc, hc, hne]

/-- Composition: balanced ++ open ++ balanced ++ matching close is balanced. -/
theorem balancedB_compose {A B : List Char} {o c : Char}
    (hA : balancedB A = true) (hB : balancedB B = true)
    (ho : opening_bracket_to_closing o = some c)
    (hc : is_bracket c = true) (hcc : opening_bracket_to_closing c = none) :
    balancedB (A ++ o :: (B ++ [c])) = true := by
  have hA' : process A [] = some [] := by simpa [balancedB] using hA
  have h1 : process (o :: (B ++ [c])) ([] : List Char) = some [] := by
    simp only [process, ho]
    rw [process_append, process_of_balanced hB]
    simp [process, hc, hcc]
  simp [balancedB, process_append, hA', h1]

/-- Opening a bracket inside a span that closes beyond it blocks balance: if a
balanced list has a balanced strict suffix preceded by an opening bracket, we
get a contradiction. -/
theorem not_balancedB_open_then_balanced {A B : List Char} {o b : Char}
    (ho : opening_bracket_to_closing o = some b) (hB : balancedB B = true) :
    balancedB (A ++ o :: B) = false := by
  simp only [balancedB, process_append]
  rcases hp : process A [] with _ | st
  · rfl
  · simp only [Option.some_bind, process, ho]
    rw [process_of_balanced hB]
    simp

/-- Decomposition of the stack after processing: the top of the resulting
stack is contributed by the last unmatched opening bracket. -/
theorem process_stack_cons {xs : List Char} {b : Char} {st : List Char}
    (h : process xs [] = some (b :: st)) :
    ∃ ys o zs, xs = ys ++ o :: zs ∧ opening_bracket_to_closing o = some b ∧
      balancedB zs = true ∧ process ys [] = some st := by
  suffices H : ∀ n xs b st, List.length xs ≤ n → process xs [] = some (b :: st) →
      ∃ ys o zs, xs = ys ++ o :: zs ∧ opening_bracket_to_closing o = some b ∧
        balancedB zs = true ∧ process ys [] = some st by
    exact H xs.length xs b st le_rfl h
  intro n
  induction n with
  | zero =>
    intro xs b st hlen h
    rw [List.length_eq_zero.mp (Nat.le_zero.mp hlen)] at h
    simp [process] at h
  | succ n ih =>
    intro xs b st hlen h
    rcases List.eq_nil_or_concat xs with rfl | ⟨ys, x, rfl⟩
    · simp [process] at h
    rw [List.concat_eq_append] at h hlen ⊢
    rw [process_append] at h
    rcases hy : process ys [] with _ | sty
    · simp [hy] at h
    rw [hy] at h
    rw [Option.some_bind] at h
    have hyslen : ys.length ≤ n := by
      have := hlen; simp at this; omega
    rcases hx : opening_bracket_to_closing x with _ | bx
    · by_cases hbx : is_bracket x
      · -- x is a closing bracket: it pops the stack
        rcases sty with _ | ⟨btop, styrest⟩
        · simp [process, hx, hbx] at h
        · by_cases hbe : btop = x
          · simp only [process, hx, hbx, if_true, hbe, if_pos rfl, Option.some_inj] at h
            subst h
            obtain ⟨u, o1, z1, hys, ho1, hz1, hu⟩ := ih ys btop (b :: st) hyslen hy
            have hulen : u.length ≤ n := by
              have : u.length < ys.length := by subst hys; simp
              omega
            obtain ⟨u', o2, z2, hu', ho2, hz2, hu2⟩ := ih u b st hulen hu
            refine ⟨u', o2, z2 ++ o1 :: (z1 ++ [x]), ?_, ho2, ?_, hu2⟩
            · subst hys hu'; simp
            · exact balancedB_compose hz2 hz1 (hbe ▸ ho1) hbx hx
          · simp [process, hx, hbx, hbe] at h
      · -- filler
        rw [process_filler (by simpa using hbx), process, Option.some_inj] at h
        subst h
        obtain ⟨u, o1, z1, hys, ho1, hz1, hu⟩ := ih ys b st hyslen hy
        refine ⟨u, o1, z1 ++ [x], by subst hys; simp, ho1, ?_, hu⟩
        rw [balancedB_append_filler (by simpa using hbx)]
        exact hz1
    · -- x is an opening bracket: it pushes
      simp only [process, hx, Option.some_inj, List.cons.injEq] at h
      obtain ⟨rfl, rfl⟩ := h
      exact ⟨ys, x, [], by simp, hx, by simp [balancedB, process], hy⟩

/-- A balanced list ending in a closing bracket splits around the matching
opening bracket. -/
theorem balancedB_concat_closer {xs : List Char} {c : Char}
    (hc : is_bracket c = true) (hcc : opening_bracket_to_closing c = none)
    (h : balancedB (xs ++ [c]) = true) :
    ∃ ys o zs, xs = ys ++ o :: zs ∧ opening_bracket_to_closing o = some c ∧
      balancedB zs = true ∧ balancedB ys = true := by
  have h' : process (xs ++ [c]) [] = some [] := by simpa [balancedB] using h
  rw [process_append] at h'
  rcases hy : process xs [] with _ | st
  · simp [hy] at h'
  rw [hy, Option.some_bind] at h'
  rcases st with _ | ⟨b, st'⟩
  · simp [process, hcc, hc] at h'
  · by_cases hbe : b = c
    · subst hbe
      simp only [process, hcc, hc, if_true, if_pos rfl, Option.some_inj] at h'
      subst h'
      obtain ⟨ys, o, zs, hxs, ho, hz, hys⟩ := process_stack_cons hy
      exact ⟨ys, o, zs, hxs, ho, hz, by simp [balancedB, hys]⟩
    · simp [process, hcc, hc, hbe] at h'

/-! ## Lemmas about cyclic spans -/

theorem spanAt_length (val : List Char) (s L : Nat) : (spanAt val s L).length = L := by
  simp [spanAt]

theorem spanAt_zero (val : List Char) (s : Nat) : spanAt val s 0 = [] := by
  simp [spanAt]

theorem spanAt_succ (val : List Char) (s L : Nat) :
    spanAt val s (L + 1) = spanAt val s L ++ [cyclicChar val (s + L)] := by
  simp [spanAt, List.range_succ]

theorem spanAt_one (val : List Char) (s : Nat) :
    spanAt val s 1 = [cyclicChar val s] := by
  simp [spanAt, List.range_succ]

theorem spanAt_add (val : List Char) (s a b : Nat) :
    spanAt val s (a + b) = spanAt val s a ++ spanAt val (s + a) b := by
  induction b with
  | zero => simp [spanAt_zero]
  | succ b ih =>
    rw [← Nat.add_assoc, spanAt_succ, ih, spanAt_succ, List.append_assoc]
    ring_nf

theorem cyclicChar_shift {val : List Char} {i : Nat} (h : val.length ≤ i) :
    cyclicChar val i = cyclicChar val (i - val.length) := by
  unfold cyclicChar
  congr 1
  rcases Nat.eq_zero_or_pos val.length with h0 | h0
  · simp [h0]
  · conv_lhs => rw [← Nat.sub_add_cancel h]
    rw [Nat.add_mod_right]

theorem spanAt_shift {val : List Char} {s : Nat} (L : Nat) (h : val.length ≤ s) :
    spanAt val s L = spanAt val (s - val.length) L := by
  unfold spanAt
  apply List.map_congr_left
  intro k _
  have h1 : val.length ≤ s + k := le_trans h (Nat.le_add_right s k)
  rw [cyclicChar_shift h1]
  congr 1
  omega

theorem spanAt_eq_slice {val : List Char} {a L : Nat} (h : a + L ≤ val.length) :
    spanAt val a L = (val.drop a).take L := by
  apply List.ext_getElem
  · simp [spanAt_length]; omega
  · intro k hk hk'
    have hkL : k < L := by simpa [spanAt_length] using hk
    have hak : a + k < val.length := by omega
    simp only [spanAt, List.getElem_map, List.getElem_range]
    rw [List.getElem_take, List.getElem_drop]
    simp only [cyclicChar, Nat.mod_eq_of_lt hak]
    rw [List.getD_eq_getElem val 'A' hak]

/-- Splitting a span at a distinguished list position recovers the
corresponding unwrapped index. -/
theorem spanAt_split {val : List Char} {s L : Nat} {A B : List Char} {x : Char}
    (h : spanAt val s L = A ++ x :: B) :
    A.length < L ∧ A = spanAt val s A.length ∧ x = cyclicChar val (s + A.length) ∧
      B = spanAt val (s + A.length + 1) (L - A.length - 1) := by
  have hL : L = A.length + 1 + (L - A.length - 1) := by
    have := congrArg List.length h
    simp [spanAt_length] at this
    omega
  have hlt : A.length < L := by
    have := congrArg List.length h
    simp [spanAt_length] at this
    omega
  have e3 : s + (A.length + 1) = s + A.length + 1 := by omega
  have hdec : spanAt val s L
      = spanAt val s A.length ++ (spanAt val (s + A.length) 1
        ++ spanAt val (s + A.length + 1) (L - A.length - 1)) := by
    conv_lhs => rw [hL]
    rw [spanAt_add, spanAt_add, List.append_assoc, e3]
  rw [h, spanAt_one] at hdec
  have hlen1 : A.length = (spanAt val s A.length).length := by simp [spanAt_length]
  obtain ⟨hA, hrest⟩ := List.append_inj hdec hlen1
  simp only [List.singleton_append, List.cons.injEq] at hrest
  exact ⟨hlt, hA, hrest.1, hrest.2⟩

/-! ## Lemmas about `validRun` -/

theorem validRun_of_le {val : List Char} {u v : Nat} (h : v ≤ u) : validRun val u v := by
  unfold validRun
  rw [Nat.sub_eq_zero_of_le h, spanAt_zero]
  rfl

theorem validRun_refl (val : List Char) (u : Nat) : validRun val u u :=
  validRun_of_le le_rfl

theorem closer_of_opening {o c : Char} (h : opening_bracket_to_closing o = some c) :
    is_bracket c = true ∧ opening_bracket_to_closing c = none := by
  rcases opening_cases h with ⟨rfl, rfl⟩ | ⟨rfl, rfl⟩ | ⟨rfl, rfl⟩ <;> exact ⟨by decide, by decide⟩

theorem validRun_filler_ext {val : List Char} {u i : Nat} (hu : u ≤ i)
    (h : validRun val u i) (hf : is_bracket (cyclicChar val i) = false) :
    validRun val u (i + 1) := by
  unfold validRun at h ⊢
  have : i + 1 - u = (i - u) + 1 := by omega
  rw [this, spanAt_succ]
  have : u + (i - u) = i := by omega
  rw [this, balancedB_append_filler hf]
  exact h

theorem validRun_filler_strip {val : List Char} {u i : Nat} (hu : u ≤ i)
    (hf : is_bracket (cyclicChar val i) = false) (h : validRun val u (i + 1)) :
    validRun val u i := by
  unfold validRun at h ⊢
  have h1 : i + 1 - u = (i - u) + 1 := by omega
  rw [h1, spanAt_succ] at h
  have h2 : u + (i - u) = i := by omega
  rw [h2, balancedB_append_filler hf] at h
  exact h

theorem not_validRun_open {val : List Char} {u i : Nat} {b : Char} (hu : u ≤ i)
    (ho : opening_bracket_to_closing (cyclicChar val i) = some b) :
    ¬ validRun val u (i + 1) := by
  unfold validRun
  have h1 : i + 1 - u = (i - u) + 1 := by omega
  have h2 : u + (i - u) = i := by omega
  rw [h1, spanAt_succ, h2, not_balancedB_append_opening ho]
  simp

theorem validRun_compose {val : List Char} {a q i : Nat} {c : Char}
    (haq : a ≤ q) (hqi : q < i)
    (h1 : validRun val a q)
    (ho : opening_bracket_to_closing (cyclicChar val q) = some c)
    (h2 : validRun val (q + 1) i)
    (hc : cyclicChar val i = c) :
    validRun val a (i + 1) := by
  unfold validRun at h1 h2 ⊢
  obtain ⟨hcb, hcn⟩ := closer_of_opening ho
  have hsplit : i + 1 - a = (q - a) + (1 + ((i - (q + 1)) + 1)) := by omega
  rw [hsplit, spanAt_add, spanAt_add]
  have e1 : a + (q - a) = q := by omega
  rw [e1, spanAt_one]
  have e2 : q + 1 + (i - (q + 1)) = i := by omega
  have hsplit2 : spanAt val (q + 1) (i - (q + 1) + 1)
      = spanAt val (q + 1) (i - (q + 1)) ++ [cyclicChar val i] := by
    rw [spanAt_succ, e2]
  rw [hsplit2, hc]
  have := balancedB_compose h1 h2 ho hcb hcn
  simpa using this

theorem validRun_close_decomp {val : List Char} {u i : Nat}
    (hu : u ≤ i) (hb : is_bracket (cyclicChar val i) = true)
    (hn : opening_bracket_to_closing (cyclicChar val i) = none)
    (h : validRun val u (i + 1)) :
    ∃ q, u ≤ q ∧ q < i ∧
      opening_bracket_to_closing (cyclicChar val q) = some (cyclicChar val i) ∧
      validRun val u q ∧ validRun val (q + 1) i := by
  unfold validRun at h
  have h1 : i + 1 - u = (i - u) + 1 := by omega
  have h2 : u + (i - u) = i := by omega
  rw [h1, spanAt_succ, h2] at h
  obtain ⟨ys, o, zs, hxs, ho, hz, hys⟩ := balancedB_concat_closer hb hn h
  obtain ⟨hlt, hA, hx, hB⟩ := spanAt_split hxs
  refine ⟨u + ys.length, by omega, by omega, ?_, ?_, ?_⟩
  · rw [← hx]; exact ho
  · unfold validRun
    have : u + ys.length - u = ys.length := by omega
    rw [this, ← hA]
    exact hys
  · unfold validRun
    have : i - (u + ys.length + 1) = (i - u) - ys.length - 1 := by omega
    rw [this, ← hB]
    exact hz

/-- An opening bracket strictly inside a valid run whose suffix from just past
that bracket is itself valid contradicts validity of the whole run. -/
theorem not_validRun_open_mid {val : List Char} {a q i : Nat} {b : Char}
    (hrun : validRun val a i) (haq : a ≤ q) (hqi : q < i)
    (ho : opening_bracket_to_closing (cyclicChar val q) = some b)
    (hsuf : validRun val (q + 1) i) : False := by
  unfold validRun at hrun hsuf
  have hsplit : i - a = (q - a) + (1 + (i - (q + 1))) := by omega
  rw [hsplit, spanAt_add, spanAt_add] at hrun
  have e1 : a + (q - a) = q := by omega
  rw [e1, spanAt_one] at hrun
  have hfalse := not_balancedB_open_then_balanced (A := spanAt val a (q - a)) ho hsuf
  have hassoc : spanAt val a (q - a) ++ ([cyclicChar val q] ++ spanAt val (q + 1) (i - (q + 1)))
      = spanAt val a (q - a) ++ cyclicChar val q :: spanAt val (q + 1) (i - (q + 1)) := by
    simp
  rw [hassoc] at hrun
  simp [hfalse] at hrun

/-! ## Byte-length helper lemmas -/

theorem byteLen_ge_length (val : List Char) : val.length ≤ byteLen val := by
  unfold byteLen
  induction val with
  | nil => simp
  | cons c rest ih =>
    simp only [List.map_cons, List.sum_cons, List.length_cons]
    have := lenUtf8_pos c
    omega

theorem byteLen_nil : byteLen [] = 0 := rfl

theorem length_pos_of_byteLen_pos {val : List Char} (h : 1 ≤ byteLen val) :
    1 ≤ val.length := by
  rcases val with _ | ⟨c, rest⟩
  · simp [byteLen_nil] at h
  · simp

theorem byteLen_eq_length {val : List Char}
    (h : ∀ j, j < val.length → lenUtf8 (val.getD j 'A') = 1) :
    byteLen val = val.length := by
  unfold byteLen
  induction val with
  | nil => simp
  | cons c rest ih =>
    simp only [List.map_cons, List.sum_cons, List.length_cons]
    have h0 : lenUtf8 c = 1 := by
      have := h 0 (by simp)
      simpa using this
    have hrest : ∀ j, j < rest.length → lenUtf8 (rest.getD j 'A') = 1 := by
      intro j hj
      have := h (j + 1) (by simpa using Nat.succ_lt_succ hj)
      simpa using this
    rw [h0, ih hrest]
    omega

theorem cyclicChar_eq_getD {val : List Char} {i : Nat} (h : i < val.length) :
    cyclicChar val i = val.getD i 'A' := by
  unfold cyclicChar
  rw [Nat.mod_eq_of_lt h]

/-! ## Step characterization lemmas -/

theorem step_eq_nonByte {val : List Char} {i : Nat} (s : ScanState)
    (h : 1 < lenUtf8 (cyclicChar val i)) : step val i s = .nonByte := by
  unfold step
  rw [if_pos (Or.inl h)]

theorem step_eq_open {val : List Char} {i : Nat} (s : ScanState) {b : Char}
    (ho : opening_bracket_to_closing (cyclicChar val i) = some b) :
    step val i s =
      if (byteLen val ≤ i ∧
            ((s.brackets.head?.map (fun c => c.index == i - byteLen val)).getD false))
          ∨ s.brackets.length + 1 = byteLen val then
        .brk s
      else
        .cont { s with brackets := s.brackets ++ [⟨b, i⟩] } := by
  have hbr := is_bracket_of_opening ho
  have hby := lenUtf8_bracket hbr
  unfold step
  rw [if_neg (by rw [byte_check_false hby]; exact id), if_pos hbr, ho]

theorem step_eq_mismatch_nil {val : List Char} {i : Nat} (s : ScanState)
    (hbr : is_bracket (cyclicChar val i) = true)
    (hn : opening_bracket_to_closing (cyclicChar val i) = none)
    (hnil : s.brackets = []) :
    step val i s =
      if byteLen val ≤ i then .brk (mismatchReset s) else .cont (mismatchReset s) := by
  have hby := lenUtf8_bracket hbr
  unfold step
  rw [if_neg (by rw [byte_check_false hby]; exact id), if_pos hbr, hn, hnil]
  rfl

theorem step_eq_close_pop {val : List Char} {i : Nat} (s : ScanState)
    {front : List CharPos} {last : CharPos}
    (hbr : is_bracket (cyclicChar val i) = true)
    (hn : opening_bracket_to_closing (cyclicChar val i) = none)
    (hfl : s.brackets = front ++ [last]) :
    step val i s =
      if last.val = cyclicChar val i then
        applyLen (byteLen val) i { s with brackets := front }
          (match front.getLast? with
            | some prev => i - prev.index
            | none => 1 + i - last.index + s.prev_valid_len)
      else
        if byteLen val ≤ i then .brk (mismatchReset s) else .cont (mismatchReset s) := by
  have hby := lenUtf8_bracket hbr
  unfold step
  rw [if_neg (by rw [byte_check_false hby]; exact id), if_pos hbr, hn, hfl]
  have h1 : (front ++ [last]).getLast? = some last := by simp
  have h2 : (front ++ [last]).dropLast = front := by simp
  rw [h1]
  simp only [h2]
  by_cases hm : last.val = cyclicChar val i
  · rw [if_pos hm, if_pos hm]
  · rw [if_neg hm, if_neg hm]
    rfl

theorem step_eq_filler {val : List Char} {i : Nat} (s : ScanState)
    (hf : is_bracket (cyclicChar val i) = false)
    (hby : lenUtf8 (cyclicChar val i) = 1) :
    step val i s =
      applyLen (byteLen val) i s
        (match s.brackets.getLast? with
          | some prev => i - prev.index
          | none => s.prev_valid_len + 1) := by
  unfold step
  rw [if_neg (by rw [byte_check_false hby]; exact id), if_neg (by simp [hf])]

/-! ## `applyLen` analysis -/

theorem applyLen_inf_iff {n i : Nat} {s : ScanState} {len : Nat} :
    applyLen n i s len = .inf ↔ (s.max_len < len ∧ n ≤ len) := by
  unfold applyLen
  by_cases h : s.max_len < len ∧ n ≤ len
  · simp [h]
  · simp [h]

theorem applyLen_cont {n i : Nat} {s : ScanState} {len : Nat} {s' : ScanState}
    (h : applyLen n i s len = .cont s') :
    s'.brackets = s.brackets ∧
    s'.prev_valid_len = (if s.brackets = [] then len else s.prev_valid_len) ∧
    ((len ≤ s.max_len ∧ s'.max_len = s.max_len ∧ s'.max_end = s.max_end) ∨
      (s.max_len < len ∧ len < n ∧ s'.max_len = len ∧ s'.max_end = i + 1)) := by
  unfold applyLen at h
  by_cases hinf : s.max_len < len ∧ n ≤ len
  · rw [if_pos hinf] at h; cases h
  · rw [if_neg hinf] at h
    by_cases hup : s.max_len < len
    · rw [if_pos hup] at h
      by_cases hemp : s.brackets = []
      · simp only [hemp, List.isEmpty_nil, if_true, StepRes.cont.injEq] at h
        subst h
        refine ⟨hemp.symm, by simp [hemp], Or.inr ⟨hup, by omega, rfl, rfl⟩⟩
      · have : s.brackets.isEmpty = false := by
          simpa [List.isEmpty_iff] using hemp
        simp only [this, Bool.false_eq_true, if_false, StepRes.cont.injEq] at h
        subst h
        exact ⟨rfl, by simp [hemp], Or.inr ⟨hup, by omega, rfl, rfl⟩⟩
    · rw [if_neg hup] at h
      by_cases hemp : s.brackets = []
      · simp only [hemp, List.isEmpty_nil, if_true, StepRes.cont.injEq] at h
        subst h
        exact ⟨hemp.symm, by simp [hemp], Or.inl ⟨by omega, rfl, rfl⟩⟩
      · have : s.brackets.isEmpty = false := by
          simpa [List.isEmpty_iff] using hemp
        simp only [this, Bool.false_eq_true, if_false, StepRes.cont.injEq] at h
        subst h
        exact ⟨rfl, by simp [hemp], Or.inl ⟨by omega, rfl, rfl⟩⟩

theorem applyLen_cont_max_ge {n i : Nat} {s : ScanState} {len : Nat} {s' : ScanState}
    (h : applyLen n i s len = .cont s') : len ≤ s'.max_len ∧ s.max_len ≤ s'.max_len := by
  rcases (applyLen_cont h).2.2 with ⟨h1, h2, _⟩ | ⟨h1, _, h2, _⟩ <;> omega

/-! ## The scan-loop invariant

Sound and complete characterization of the scanner state before processing
unwrapped index `i`: the stack entries are opening brackets at increasing
indices, the tracked segments between them (and the `prev_valid_len` run) are
valid, no valid run crosses a pending open, `prev_valid_len` and `max_len`
dominate all valid runs ending at the frontier resp. strictly in the past, and
the best-span scalars satisfy the slicing bounds. -/

structure Inv (val : List Char) (i : Nat) (s : ScanState) : Prop where
  chain : List.Chain' (fun p q => p.index < q.index ∧ validRun val (p.index + 1) q.index)
    s.brackets
  entries_lt : ∀ e ∈ s.brackets, e.index < i
  entries_open : ∀ e ∈ s.brackets,
    opening_bracket_to_closing (cyclicChar val e.index) = some e.val
  size : s.brackets.length + 1 ≤ byteLen val
  pvl_empty : s.brackets = [] → s.prev_valid_len ≤ i
  pvl_bot : ∀ b, s.brackets.head? = some b → s.prev_valid_len ≤ b.index
  run_empty : s.brackets = [] → validRun val (i - s.prev_valid_len) i
  run_bot : ∀ b, s.brackets.head? = some b →
    validRun val (b.index - s.prev_valid_len) b.index
  run_top : ∀ t, s.brackets.getLast? = some t → validRun val (t.index + 1) i
  comp_empty : s.brackets = [] → ∀ u, validRun val u i → i - u ≤ s.prev_valid_len
  comp_bot : ∀ b, s.brackets.head? = some b →
    ∀ u, validRun val u b.index → b.index - u ≤ s.prev_valid_len
  noruns : ∀ e ∈ s.brackets, ∀ u j, u ≤ e.index → e.index < j → j ≤ i →
    ¬ validRun val u j
  nb_empty : s.brackets = [] → (s.prev_valid_len = i ∨
    opening_bracket_to_closing (cyclicChar val (i - s.prev_valid_len - 1)) = none)
  nb_bot : ∀ b, s.brackets.head? = some b → (s.prev_valid_len = b.index ∨
    opening_bracket_to_closing (cyclicChar val (b.index - s.prev_valid_len - 1)) = none)
  maxc : ∀ u j, j < i → validRun val u (j + 1) → j + 1 - u ≤ s.max_len
  max_le : s.max_len ≤ s.max_end
  maxend_le : s.max_end ≤ i
  max0 : s.max_len = 0 → s.max_end = 0
  max_lt : 0 < s.max_len → s.max_len < byteLen val
  wrap : byteLen val < s.max_end → s.max_end - s.max_len ≤ byteLen val
  sound_max : 0 < s.max_len → validRun val (s.max_end - s.max_len) s.max_end
  sb_upto : ∀ j, j < i → j < val.length → lenUtf8 (val.getD j 'A') = 1

theorem inv_init {val : List Char} (hn : 1 ≤ byteLen val) : Inv val 0 scanInit := by
  refine
    { chain := List.chain'_nil
      entries_lt := by simp [scanInit]
      entries_open := by simp [scanInit]
      size := by simpa [scanInit] using hn
      pvl_empty := fun _ => le_rfl
      pvl_bot := by simp [scanInit]
      run_empty := fun _ => validRun_refl val 0
      run_bot := by simp [scanInit]
      run_top := by simp [scanInit]
      comp_empty := fun _ u _ => by simp [scanInit]
      comp_bot := by simp [scanInit]
      noruns := by simp [scanInit]
      nb_empty := fun _ => Or.inl rfl
      nb_bot := by simp [scanInit]
      maxc := by omega
      max_le := le_rfl
      maxend_le := le_rfl
      max0 := fun _ => rfl
      max_lt := by simp [scanInit]
      wrap := by simp [scanInit]
      sound_max := by simp [scanInit]
      sb_upto := by omega }

/-- Stack entries appear at pairwise strictly increasing origin indices. -/
theorem inv_pairwise {val : List Char} {i : Nat} {s : ScanState} (hinv : Inv val i s) :
    List.Pairwise (fun p q : CharPos => p.index < q.index) s.brackets := by
  have hc : List.Chain' (fun p q : CharPos => p.index < q.index) s.brackets :=
    hinv.chain.imp (fun a b h => h.1)
  exact (@List.chain'_iff_pairwise CharPos (fun p q => p.index < q.index)
    ⟨fun a b c h1 h2 => lt_trans h1 h2⟩ s.brackets).mp hc

/-- From a derived `Inv` with `val = []`, a contradiction (there are no
iterations over the empty string). -/
theorem inv_val_ne_nil {val : List Char} {i : Nat} {s : ScanState} (hinv : Inv val i s) :
    1 ≤ byteLen val := by
  have := hinv.size
  omega

/-- For any valid run that ends right after a closing bracket at frontier
index `i`, the matching open of that closer is the scanner's stack top. -/
theorem run_close_q {val : List Char} {i : Nat} {s : ScanState}
    (hinv : Inv val i s)
    (hbr : is_bracket (cyclicChar val i) = true)
    (hn : opening_bracket_to_closing (cyclicChar val i) = none)
    {front : List CharPos} {last : CharPos}
    (hfl : s.brackets = front ++ [last])
    {u : Nat} (hu : u ≤ i) (hrun : validRun val u (i + 1)) :
    last.val = cyclicChar val i ∧ u ≤ last.index ∧ validRun val u last.index := by
  obtain ⟨q, huq, hqi, ho, hr1, hr2⟩ := validRun_close_decomp hu hbr hn hrun
  have hlast_mem : last ∈ s.brackets := by rw [hfl]; simp
  have hlast_lt : last.index < i := hinv.entries_lt last hlast_mem
  have htop : s.brackets.getLast? = some last := by rw [hfl]; simp
  rcases Nat.lt_trichotomy q last.index with hlt | heq | hgt
  · -- q below the top: the inner run would cross the pending open `last`
    exact absurd hr2 (hinv.noruns last hlast_mem (q + 1) i (by omega) hlast_lt le_rfl)
  · -- q = last.index: the close matches the top
    subst heq
    have hoe := hinv.entries_open last hlast_mem
    rw [hoe] at ho
    exact ⟨Option.some_inj.mp ho, by omega, hr1⟩
  · -- q above the top: open inside the tracked balanced segment after the top
    exact (not_validRun_open_mid (hinv.run_top last htop) (by omega) hqi ho hr2).elim

/-- When the scanner sees a closing bracket with an empty stack, or one that
does not match the top of the stack, no valid run ends just after it. -/
theorem no_close_run {val : List Char} {i : Nat} {s : ScanState}
    (hinv : Inv val i s)
    (hbr : is_bracket (cyclicChar val i) = true)
    (hn : opening_bracket_to_closing (cyclicChar val i) = none)
    (hmm : s.brackets = [] ∨
      ∃ front last, s.brackets = front ++ [last] ∧ last.val ≠ cyclicChar val i) :
    ∀ u, u ≤ i → ¬ validRun val u (i + 1) := by
  intro u hu hrun
  rcases hmm with hnil | ⟨front, last, hfl, hne⟩
  · -- empty stack: the matching open would live inside the tracked run
    obtain ⟨q, huq, hqi, ho, hr1, hr2⟩ := validRun_close_decomp hu hbr hn hrun
    have hce := hinv.comp_empty hnil (q + 1) hr2
    have hre := hinv.run_empty hnil
    rcases Nat.lt_or_ge q (i - s.prev_valid_len) with hqlt | hqge
    · -- q is just before the tracked run: contradicts the no-open fact there
      have hq_eq : q = i - s.prev_valid_len - 1 ∧ 1 ≤ i - s.prev_valid_len := by omega
      rcases hinv.nb_empty hnil with hp | hopen
      · omega
      · rw [hq_eq.1] at ho
        rw [hopen] at ho
        cases ho
    · -- q inside the tracked balanced run
      exact not_validRun_open_mid hre hqge hqi ho hr2
  · obtain ⟨hval, _, _⟩ := run_close_q hinv hbr hn hfl hu hrun
    exact hne hval

/-- All invariant clauses about the best-span scalars are preserved by a
candidate update, for any sound candidate whose run reaches the new frontier.
The wrap bound uses periodicity: a candidate run lying wholly inside the
second lap already occurred one lap earlier, so by `maxc` it cannot beat
`max_len` — hence any updating run must start within the first lap. -/
theorem applyLen_max_fields {val : List Char} {i : Nat} {s s' : ScanState} {LEN : Nat}
    (s₀ : ScanState) (hinv : Inv val i s)
    (hml : s₀.max_len = s.max_len) (hme : s₀.max_end = s.max_end)
    (happ : applyLen (byteLen val) i s₀ LEN = .cont s')
    (hrun : validRun val (i + 1 - LEN) (i + 1)) (hle : LEN ≤ i + 1) :
    s'.max_len ≤ s'.max_end ∧ s'.max_end ≤ i + 1 ∧ (s'.max_len = 0 → s'.max_end = 0) ∧
    (0 < s'.max_len → s'.max_len < byteLen val) ∧
    (byteLen val < s'.max_end → s'.max_end - s'.max_len ≤ byteLen val) ∧
    (0 < s'.max_len → validRun val (s'.max_end - s'.max_len) s'.max_end) ∧
    s.max_len ≤ s'.max_len ∧ s.max_end ≤ s'.max_end := by
  rcases (applyLen_cont happ).2.2 with ⟨h1, h2, h3⟩ | ⟨h1, h2, h3, h4⟩
  · rw [h2, h3, hml, hme]
    refine ⟨hinv.max_le, le_trans hinv.maxend_le (by omega), hinv.max0, hinv.max_lt,
      hinv.wrap, hinv.sound_max, le_rfl, le_rfl⟩
  · -- updating step: max_len := LEN, max_end := i + 1
    rw [hml] at h1
    rw [h3, h4]
    have hLENpos : 0 < LEN := by omega
    have hwrap : byteLen val < i + 1 → i + 1 - LEN ≤ byteLen val := by
      intro hlt
      by_contra hbad
      push_neg at hbad
      -- the candidate run lies wholly in the second lap; shift it down one lap
      set n := byteLen val with hn
      set start := i + 1 - LEN with hstart
      have hcc1 : 1 ≤ val.length := length_pos_of_byteLen_pos (inv_val_ne_nil hinv)
      have hin : n ≤ i := by omega
      have hccle : val.length ≤ n := byteLen_ge_length val
      have hsb : ∀ j, j < val.length → lenUtf8 (val.getD j 'A') = 1 := by
        intro j hj
        exact hinv.sb_upto j (by omega) hj
      have hnc : n = val.length := by rw [hn, byteLen_eq_length hsb]
      have hshift : validRun val (start - val.length) (i + 1 - val.length) := by
        unfold validRun at hrun ⊢
        have e1 : i + 1 - val.length - (start - val.length) = i + 1 - start := by omega
        have e2 : i + 1 - start = LEN := by omega
        rw [e1, e2, ← spanAt_shift LEN (by omega)]
        rw [e2] at hrun
        exact hrun
      have hjlt : i - val.length < i := by omega
      have hje : i - val.length + 1 = i + 1 - val.length := by omega
      have := hinv.maxc (start - val.length) (i - val.length) hjlt (by rw [hje]; exact hshift)
      have hLENle2 : LEN ≤ s.max_len := by
        have e3 : i - val.length + 1 - (start - val.length) = LEN := by omega
        rw [e3] at this
        exact this
      omega
    refine ⟨by omega, le_rfl, by omega, ?_, hwrap, ?_, by omega, le_trans hinv.maxend_le (by omega)⟩
    · intro _; exact h2
    · intro _
      exact hrun

/-- A step with a candidate cannot return `inf` when every candidate is below
the byte length: extraction of the bound from the invariant is done at the
call sites; this is the raw equivalence. -/
theorem applyLen_not_inf {n i : Nat} {s : ScanState} {len : Nat}
    (h : len < n ∨ len ≤ s.max_len) : applyLen n i s len ≠ .inf := by
  rw [Ne, applyLen_inf_iff]
  omega

/-- Invariant preservation: opening bracket, push case. -/
theorem inv_step_push {val : List Char} {i : Nat} {s : ScanState} {b : Char}
    (hinv : Inv val i s)
    (ho : opening_bracket_to_closing (cyclicChar val i) = some b)
    (hsz : s.brackets.length + 1 ≠ byteLen val) :
    Inv val (i + 1) { s with brackets := s.brackets ++ [⟨b, i⟩] } := by
  have hby : lenUtf8 (cyclicChar val i) = 1 := lenUtf8_bracket (is_bracket_of_opening ho)
  refine
    { chain := ?_
      entries_lt := ?_
      entries_open := ?_
      size := ?_
      pvl_empty := by simp
      pvl_bot := ?_
      run_empty := by simp
      run_bot := ?_
      run_top := ?_
      comp_empty := by simp
      comp_bot := ?_
      noruns := ?_
      nb_empty := by simp
      nb_bot := ?_
      maxc := ?_
      max_le := hinv.max_le
      maxend_le := by have := hinv.maxend_le; simpa using by omega
      max0 := hinv.max0
      max_lt := hinv.max_lt
      wrap := hinv.wrap
      sound_max := hinv.sound_max
      sb_upto := ?_ }
  · -- chain
    rw [List.chain'_append]
    refine ⟨hinv.chain, List.chain'_singleton _, ?_⟩
    intro x hx y hy
    simp only [List.head?_cons, Option.mem_def, Option.some_inj] at hy
    subst hy
    exact ⟨hinv.entries_lt x (List.mem_of_mem_getLast? hx),
      hinv.run_top x (Option.mem_def.mp hx)⟩
  · -- entries_lt
    intro e he
    rcases List.mem_append.mp he with h | h
    · exact lt_trans (hinv.entries_lt e h) (by omega)
    · simp only [List.mem_singleton] at h
      subst h
      exact Nat.lt_succ_self i
  · -- entries_open
    intro e he
    rcases List.mem_append.mp he with h | h
    · exact hinv.entries_open e h
    · simp only [List.mem_singleton] at h
      subst h
      exact ho
  · -- size
    have := hinv.size
    simp only [List.length_append, List.length_singleton]
    omega
  · -- pvl_bot
    intro bb hbb
    rcases hsb : s.brackets with _ | ⟨hd, tl⟩
    · rw [hsb] at hbb
      simp only [List.nil_append, List.head?_cons, Option.some_inj] at hbb
      subst hbb
      exact hinv.pvl_empty hsb
    · rw [hsb] at hbb
      simp only [List.cons_append, List.head?_cons, Option.some_inj] at hbb
      subst hbb
      exact hinv.pvl_bot hd (by rw [hsb]; rfl)
  · -- run_bot
    intro bb hbb
    rcases hsb : s.brackets with _ | ⟨hd, tl⟩
    · rw [hsb] at hbb
      simp only [List.nil_append, List.head?_cons, Option.some_inj] at hbb
      subst hbb
      exact hinv.run_empty hsb
    · rw [hsb] at hbb
      simp only [List.cons_append, List.head?_cons, Option.some_inj] at hbb
      subst hbb
      exact hinv.run_bot hd (by rw [hsb]; rfl)
  · -- run_top
    intro t ht
    rw [List.getLast?_append] at ht
    have ht2 : (⟨b, i⟩ : CharPos) = t := Option.some_inj.mp ht
    subst ht2
    exact validRun_refl val (i + 1)
  · -- comp_bot
    intro bb hbb
    rcases hsb : s.brackets with _ | ⟨hd, tl⟩
    · rw [hsb] at hbb
      simp only [List.nil_append, List.head?_cons, Option.some_inj] at hbb
      subst hbb
      exact hinv.comp_empty hsb
    · rw [hsb] at hbb
      simp only [List.cons_append, List.head?_cons, Option.some_inj] at hbb
      subst hbb
      exact hinv.comp_bot hd (by rw [hsb]; rfl)
  · -- noruns
    intro e he u j hu hej hj hrun
    rcases List.mem_append.mp he with h | h
    · rcases Nat.lt_or_ge j (i + 1) with hji | hji
      · exact hinv.noruns e h u j hu hej (by omega) hrun
      · have hj1 : j = i + 1 := by omega
        subst hj1
        have helt := hinv.entries_lt e h
        exact not_validRun_open (by omega) ho hrun
    · simp only [List.mem_singleton] at h
      subst h
      simp only at hu hej
      have hj1 : j = i + 1 := by omega
      subst hj1
      exact not_validRun_open (by omega) ho hrun
  · -- nb_bot
    intro bb hbb
    rcases hsb : s.brackets with _ | ⟨hd, tl⟩
    · rw [hsb] at hbb
      simp only [List.nil_append, List.head?_cons, Option.some_inj] at hbb
      subst hbb
      rcases hinv.nb_empty hsb with h | h
      · exact Or.inl h
      · exact Or.inr h
    · rw [hsb] at hbb
      simp only [List.cons_append, List.head?_cons, Option.some_inj] at hbb
      subst hbb
      exact hinv.nb_bot hd (by rw [hsb]; rfl)
  · -- maxc
    intro u j hj hrun
    rcases Nat.lt_or_ge j i with hji | hji
    · exact hinv.maxc u j hji hrun
    · have hj1 : j = i := by omega
      rcases le_or_lt u i with hui | hui
      · rw [hj1] at hrun
        exact absurd hrun (not_validRun_open hui ho)
      · omega
  · -- sb_upto
    intro j hj hjcc
    rcases Nat.lt_or_ge j i with hji | hji
    · exact hinv.sb_upto j hji hjcc
    · have hj1 : j = i := by omega
      subst hj1
      rw [← cyclicChar_eq_getD hjcc]
      exact hby

/-- Invariant preservation: closing bracket with empty stack or mismatched
top; the state is fully reset (the loop continues only when `i < n`). -/
theorem inv_step_mismatch {val : List Char} {i : Nat} {s : ScanState}
    (hinv : Inv val i s)
    (hbr : is_bracket (cyclicChar val i) = true)
    (hn : opening_bracket_to_closing (cyclicChar val i) = none)
    (hmm : s.brackets = [] ∨
      ∃ front last, s.brackets = front ++ [last] ∧ last.val ≠ cyclicChar val i)
    (hi : i < byteLen val) :
    Inv val (i + 1) (mismatchReset s) := by
  have hnc := no_close_run hinv hbr hn hmm
  refine
    { chain := List.chain'_nil
      entries_lt := by simp [mismatchReset]
      entries_open := by simp [mismatchReset]
      size := by simp [mismatchReset]; omega
      pvl_empty := fun _ => by simp [mismatchReset]
      pvl_bot := by simp [mismatchReset]
      run_empty := fun _ => by
        simp only [mismatchReset, Nat.sub_zero]
        exact validRun_refl val (i + 1)
      run_bot := by simp [mismatchReset]
      run_top := by simp [mismatchReset]
      comp_empty := fun _ u hrun => by
        simp only [mismatchReset]
        rcases le_or_lt u i with hui | hui
        · exact absurd hrun (hnc u hui)
        · omega
      comp_bot := by simp [mismatchReset]
      noruns := by simp [mismatchReset]
      nb_empty := fun _ => by
        simp only [mismatchReset, Nat.sub_zero, Nat.add_sub_cancel]
        exact Or.inr hn
      nb_bot := by simp [mismatchReset]
      maxc := ?_
      max_le := hinv.max_le
      maxend_le := le_trans hinv.maxend_le (by omega)
      max0 := hinv.max0
      max_lt := hinv.max_lt
      wrap := hinv.wrap
      sound_max := hinv.sound_max
      sb_upto := ?_ }
  · -- maxc
    intro u j hj hrun
    rcases Nat.lt_or_ge j i with hji | hji
    · exact hinv.maxc u j hji hrun
    · have hj1 : j = i := by omega
      rcases le_or_lt u i with hui | hui
      · rw [hj1] at hrun
        exact absurd hrun (hnc u hui)
      · omega
  · -- sb_upto
    intro j hj hjcc
    rcases Nat.lt_or_ge j i with hji | hji
    · exact hinv.sb_upto j hji hjcc
    · have hj1 : j = i := by omega
      subst hj1
      rw [← cyclicChar_eq_getD hjcc]
      exact lenUtf8_bracket hbr

/-- Invariant preservation: non-bracket filler character. -/
theorem inv_step_filler {val : List Char} {i : Nat} {s s' : ScanState}
    (hinv : Inv val i s)
    (hf : is_bracket (cyclicChar val i) = false)
    (hby : lenUtf8 (cyclicChar val i) = 1)
    (happ : applyLen (byteLen val) i s
      (match s.brackets.getLast? with
        | some prev => i - prev.index
        | none => s.prev_valid_len + 1) = .cont s') :
    Inv val (i + 1) s' := by
  obtain ⟨hb, hp, _⟩ := applyLen_cont happ
  rcases List.eq_nil_or_concat s.brackets with hnil | ⟨front, t, hfl⟩
  · -- empty stack: LEN = prev_valid_len + 1
    have hlen_eq : (match s.brackets.getLast? with
        | some prev => i - prev.index
        | none => s.prev_valid_len + 1) = s.prev_valid_len + 1 := by
      rw [hnil]
      rfl
    rw [hlen_eq] at happ
    have hple := hinv.pvl_empty hnil
    have hrun : validRun val (i + 1 - (s.prev_valid_len + 1)) (i + 1) := by
      have : i + 1 - (s.prev_valid_len + 1) = i - s.prev_valid_len := by omega
      rw [this]
      exact validRun_filler_ext (by omega) (hinv.run_empty hnil) hf
    obtain ⟨hm1, hm2, hm3, hm4, hm5, hm6, hm7, hm8⟩ :=
      applyLen_max_fields s hinv rfl rfl happ hrun (by omega)
    have hb' : s'.brackets = [] := by rw [hb]; exact hnil
    have hp' : s'.prev_valid_len = s.prev_valid_len + 1 := by
      rw [hp, if_pos hnil, hlen_eq]
    refine
      { chain := by rw [hb']; exact List.chain'_nil
        entries_lt := by rw [hb']; simp
        entries_open := by rw [hb']; simp
        size := by rw [hb']; have := hinv.size; simp; omega
        pvl_empty := fun _ => by rw [hp']; omega
        pvl_bot := by rw [hb']; simp
        run_empty := fun _ => by
          rw [hp']
          have : i + 1 - (s.prev_valid_len + 1) = i - s.prev_valid_len := by omega
          rw [this]
          exact validRun_filler_ext (by omega) (hinv.run_empty hnil) hf
        run_bot := by rw [hb']; simp
        run_top := by rw [hb']; simp
        comp_empty := fun _ u hrun2 => by
          rw [hp']
          rcases le_or_lt u i with hui | hui
          · have := hinv.comp_empty hnil u (validRun_filler_strip hui hf hrun2)
            omega
          · omega
        comp_bot := by rw [hb']; simp
        noruns := by rw [hb']; simp
        nb_empty := fun _ => by
          rw [hp']
          rcases hinv.nb_empty hnil with h | h
          · exact Or.inl (by omega)
          · refine Or.inr ?_
            have : i + 1 - (s.prev_valid_len + 1) - 1 = i - s.prev_valid_len - 1 := by omega
            rw [this]
            exact h
        nb_bot := by rw [hb']; simp
        maxc := ?_
        max_le := hm1
        maxend_le := hm2
        max0 := hm3
        max_lt := hm4
        wrap := hm5
        sound_max := hm6
        sb_upto := ?_ }
    · -- maxc
      intro u j hj hrun2
      rcases Nat.lt_or_ge j i with hji | hji
      · exact le_trans (hinv.maxc u j hji hrun2) hm7
      · have hj1 : j = i := by omega
        rcases le_or_lt u i with hui | hui
        · have h1 := hinv.comp_empty hnil u (validRun_filler_strip hui hf (hj1 ▸ hrun2))
          have h2 := (applyLen_cont_max_ge happ).1
          omega
        · omega
    · -- sb_upto
      intro j hj hjcc
      rcases Nat.lt_or_ge j i with hji | hji
      · exact hinv.sb_upto j hji hjcc
      · have hj1 : j = i := by omega
        subst hj1
        rw [← cyclicChar_eq_getD hjcc]
        exact hby
  · -- nonempty stack with top `t`: LEN = i - t.index
    have hgl : s.brackets.getLast? = some t := by rw [hfl]; simp
    have hlen_eq : (match s.brackets.getLast? with
        | some prev => i - prev.index
        | none => s.prev_valid_len + 1) = i - t.index := by
      rw [hgl]
    rw [hlen_eq] at happ
    have htmem : t ∈ s.brackets := by rw [hfl]; simp
    have htlt : t.index < i := hinv.entries_lt t htmem
    have hrun : validRun val (i + 1 - (i - t.index)) (i + 1) := by
      have : i + 1 - (i - t.index) = t.index + 1 := by omega
      rw [this]
      exact validRun_filler_ext (by omega) (hinv.run_top t hgl) hf
    obtain ⟨hm1, hm2, hm3, hm4, hm5, hm6, hm7, hm8⟩ :=
      applyLen_max_fields s hinv rfl rfl happ hrun (by omega)
    have hnn : s.brackets ≠ [] := by rw [hfl]; simp
    have hp' : s'.prev_valid_len = s.prev_valid_len := by rw [hp, if_neg hnn]
    refine
      { chain := by rw [hb]; exact hinv.chain
        entries_lt := by
          rw [hb]
          intro e he
          exact lt_trans (hinv.entries_lt e he) (by omega)
        entries_open := by rw [hb]; exact hinv.entries_open
        size := by rw [hb]; exact hinv.size
        pvl_empty := by rw [hb]; intro h; exact absurd h hnn
        pvl_bot := by rw [hb, hp']; exact hinv.pvl_bot
        run_empty := by rw [hb]; intro h; exact absurd h hnn
        run_bot := by rw [hb, hp']; exact hinv.run_bot
        run_top := ?_
        comp_empty := by rw [hb]; intro h; exact absurd h hnn
        comp_bot := by rw [hb, hp']; exact hinv.comp_bot
        noruns := ?_
        nb_empty := by rw [hb]; intro h; exact absurd h hnn
        nb_bot := by rw [hb, hp']; exact hinv.nb_bot
        maxc := ?_
        max_le := hm1
        maxend_le := hm2
        max0 := hm3
        max_lt := hm4
        wrap := hm5
        sound_max := hm6
        sb_upto := ?_ }
    · -- run_top
      intro t' ht'
      rw [hb, hgl] at ht'
      have : t = t' := Option.some_inj.mp ht'
      subst this
      exact validRun_filler_ext (by omega) (hinv.run_top t hgl) hf
    · -- noruns
      rw [hb]
      intro e he u j hu hej hj hrun2
      have helt := hinv.entries_lt e he
      rcases Nat.lt_or_ge j (i + 1) with hji | hji
      · exact hinv.noruns e he u j hu hej (by omega) hrun2
      · have hj1 : j = i + 1 := by omega
        subst hj1
        exact hinv.noruns e he u i hu helt le_rfl
          (validRun_filler_strip (by omega) hf hrun2)
    · -- maxc
      intro u j hj hrun2
      rcases Nat.lt_or_ge j i with hji | hji
      · exact le_trans (hinv.maxc u j hji hrun2) hm7
      · have hj1 : j = i := by omega
        rcases le_or_lt u i with hui | hui
        · have hstrip := validRun_filler_strip hui hf (hj1 ▸ hrun2)
          have hut : t.index < u := by
            by_contra hut
            push_neg at hut
            exact hinv.noruns t htmem u i hut htlt le_rfl hstrip
          have h2 := (applyLen_cont_max_ge happ).1
          omega
        · omega
    · -- sb_upto
      intro j hj hjcc
      rcases Nat.lt_or_ge j i with hji | hji
      · exact hinv.sb_upto j hji hjcc
      · have hj1 : j = i := by omega
        subst hj1
        rw [← cyclicChar_eq_getD hjcc]
        exact hby

/-- Invariant preservation: closing bracket matching the stack top. -/
theorem inv_step_matched {val : List Char} {i : Nat} {s s' : ScanState}
    {front : List CharPos} {last : CharPos}
    (hinv : Inv val i s)
    (hbr : is_bracket (cyclicChar val i) = true)
    (hn : opening_bracket_to_closing (cyclicChar val i) = none)
    (hfl : s.brackets = front ++ [last])
    (hmatch : last.val = cyclicChar val i)
    (happ : applyLen (byteLen val) i { s with brackets := front }
      (match front.getLast? with
        | some prev => i - prev.index
        | none => 1 + i - last.index + s.prev_valid_len) = .cont s') :
    Inv val (i + 1) s' := by
  have hlast_mem : last ∈ s.brackets := by rw [hfl]; simp
  have hlast_lt : last.index < i := hinv.entries_lt last hlast_mem
  have htop : s.brackets.getLast? = some last := by rw [hfl]; simp
  have ho_last : opening_bracket_to_closing (cyclicChar val last.index)
      = some (cyclicChar val i) := by
    rw [hinv.entries_open last hlast_mem, hmatch]
  have hq := fun u hu hrun => run_close_q hinv hbr hn hfl (u := u) hu hrun
  obtain ⟨hb, hp, _⟩ := applyLen_cont happ
  simp only at hb hp
  rcases List.eq_nil_or_concat front with hfnil | ⟨fr, prev, hfront⟩
  · -- the popped open was the only entry
    subst hfnil
    simp only [List.nil_append] at hfl
    have hhead : s.brackets.head? = some last := by rw [hfl]; rfl
    have hpvl_le := hinv.pvl_bot last hhead
    have hlen_eq : (match ([] : List CharPos).getLast? with
        | some prev => i - prev.index
        | none => 1 + i - last.index + s.prev_valid_len)
        = 1 + i - last.index + s.prev_valid_len := rfl
    rw [hlen_eq] at happ
    set LEN := 1 + i - last.index + s.prev_valid_len with hLEN
    have hstart : i + 1 - LEN = last.index - s.prev_valid_len := by omega
    have hrun : validRun val (i + 1 - LEN) (i + 1) := by
      rw [hstart]
      exact validRun_compose (by omega) hlast_lt
        (hinv.run_bot last hhead) ho_last (hinv.run_top last htop) rfl
    obtain ⟨hm1, hm2, hm3, hm4, hm5, hm6, hm7, hm8⟩ :=
      applyLen_max_fields { s with brackets := ([] : List CharPos) } hinv rfl rfl happ hrun
        (by omega)
    have hb' : s'.brackets = [] := hb
    have hp' : s'.prev_valid_len = LEN := by rw [hp, if_pos rfl]; exact hlen_eq
    refine
      { chain := by rw [hb']; exact List.chain'_nil
        entries_lt := by rw [hb']; simp
        entries_open := by rw [hb']; simp
        size := by
          rw [hb']
          have := hinv.size
          rw [hfl] at this
          simp at this ⊢
          omega
        pvl_empty := fun _ => by rw [hp']; omega
        pvl_bot := by rw [hb']; simp
        run_empty := fun _ => by rw [hp']; exact hrun
        run_bot := by rw [hb']; simp
        run_top := by rw [hb']; simp
        comp_empty := fun _ u hrun2 => by
          rw [hp']
          rcases le_or_lt u i with hui | hui
          · obtain ⟨_, hule, hurun⟩ := hq u hui hrun2
            have := hinv.comp_bot last hhead u hurun
            omega
          · omega
        comp_bot := by rw [hb']; simp
        noruns := by rw [hb']; simp
        nb_empty := fun _ => by
          rw [hp']
          rcases hinv.nb_bot last hhead with h | h
          · exact Or.inl (by omega)
          · refine Or.inr ?_
            have : i + 1 - LEN - 1 = last.index - s.prev_valid_len - 1 := by omega
            rw [this]
            exact h
        nb_bot := by rw [hb']; simp
        maxc := ?_
        max_le := hm1
        maxend_le := hm2
        max0 := hm3
        max_lt := hm4
        wrap := hm5
        sound_max := hm6
        sb_upto := ?_ }
    · -- maxc
      intro u j hj hrun2
      rcases Nat.lt_or_ge j i with hji | hji
      · exact le_trans (hinv.maxc u j hji hrun2) hm7
      · have hj1 : j = i := by omega
        rcases le_or_lt u i with hui | hui
        · obtain ⟨_, hule, hurun⟩ := hq u hui (hj1 ▸ hrun2)
          have h1 := hinv.comp_bot last hhead u hurun
          have h2 := (applyLen_cont_max_ge happ).1
          omega
        · omega
    · -- sb_upto
      intro j hj hjcc
      rcases Nat.lt_or_ge j i with hji | hji
      · exact hinv.sb_upto j hji hjcc
      · have hj1 : j = i := by omega
        subst hj1
        rw [← cyclicChar_eq_getD hjcc]
        exact lenUtf8_bracket hbr
  · -- entries remain below the popped open
    have hfne : front ≠ [] := by rw [hfront]; simp
    have hfgl : front.getLast? = some prev := by rw [hfront]; simp
    have hlen_eq : (match front.getLast? with
        | some prev => i - prev.index
        | none => 1 + i - last.index + s.prev_valid_len) = i - prev.index := by
      rw [hfgl]
    rw [hlen_eq] at happ
    have hchain := hinv.chain
    rw [hfl, List.chain'_append] at hchain
    obtain ⟨hchain_front, _, hchain_link⟩ := hchain
    obtain ⟨hprev_lt, hseg⟩ := hchain_link prev (by rw [hfgl]; rfl) last (by rfl)
    have hprev_mem : prev ∈ s.brackets := by
      rw [hfl]
      exact List.mem_append_left _ (List.mem_of_mem_getLast? (Option.mem_def.mpr hfgl))
    have hprev_lt_i : prev.index < i := hinv.entries_lt prev hprev_mem
    have hpair := inv_pairwise hinv
    rw [hfl, List.pairwise_append] at hpair
    have hfront_lt_last : ∀ e ∈ front, e.index < last.index := by
      intro e he
      exact hpair.2.2 e he last (by simp)
    have hstart : i + 1 - (i - prev.index) = prev.index + 1 := by omega
    have hrun : validRun val (i + 1 - (i - prev.index)) (i + 1) := by
      rw [hstart]
      exact validRun_compose (by omega) hlast_lt hseg ho_last
        (hinv.run_top last htop) rfl
    obtain ⟨hm1, hm2, hm3, hm4, hm5, hm6, hm7, hm8⟩ :=
      applyLen_max_fields { s with brackets := front } hinv rfl rfl happ hrun (by omega)
    have hb' : s'.brackets = front := hb
    have hhead : s.brackets.head? = front.head? := by
      rw [hfl]
      rcases front with _ | ⟨hd, tl⟩
      · exact absurd rfl hfne
      · rfl
    have hp' : s'.prev_valid_len = s.prev_valid_len := by rw [hp, if_neg hfne]
    refine
      { chain := by rw [hb']; exact hchain_front
        entries_lt := by
          rw [hb']
          intro e he
          have : e ∈ s.brackets := by rw [hfl]; exact List.mem_append_left _ he
          exact lt_trans (hinv.entries_lt e this) (by omega)
        entries_open := by
          rw [hb']
          intro e he
          have : e ∈ s.brackets := by rw [hfl]; exact List.mem_append_left _ he
          exact hinv.entries_open e this
        size := by
          rw [hb']
          have := hinv.size
          rw [hfl] at this
          simp at this ⊢
          omega
        pvl_empty := by rw [hb']; intro h; exact absurd h hfne
        pvl_bot := by
          rw [hb', hp', ← hhead]
          exact hinv.pvl_bot
        run_empty := by rw [hb']; intro h; exact absurd h hfne
        run_bot := by
          rw [hb', hp', ← hhead]
          exact hinv.run_bot
        run_top := ?_
        comp_empty := by rw [hb']; intro h; exact absurd h hfne
        comp_bot := by
          rw [hb', hp', ← hhead]
          exact hinv.comp_bot
        noruns := ?_
        nb_empty := by rw [hb']; intro h; exact absurd h hfne
        nb_bot := by
          rw [hb', hp', ← hhead]
          exact hinv.nb_bot
        maxc := ?_
        max_le := hm1
        maxend_le := hm2
        max0 := hm3
        max_lt := hm4
        wrap := hm5
        sound_max := hm6
        sb_upto := ?_ }
    · -- run_top
      intro t' ht'
      rw [hb', hfgl] at ht'
      have : prev = t' := Option.some_inj.mp ht'
      subst this
      rw [← hstart]
      exact hrun
    · -- noruns
      rw [hb']
      intro e he u j hu hej hj hrun2
      have hemem : e ∈ s.brackets := by rw [hfl]; exact List.mem_append_left _ he
      rcases Nat.lt_or_ge j (i + 1) with hji | hji
      · exact hinv.noruns e hemem u j hu hej (by omega) hrun2
      · have hj1 : j = i + 1 := by omega
        subst hj1
        obtain ⟨_, hule, hurun⟩ := hq u (by omega) hrun2
        exact hinv.noruns e hemem u last.index hu (hfront_lt_last e he)
          (by omega) hurun
    · -- maxc
      intro u j hj hrun2
      rcases Nat.lt_or_ge j i with hji | hji
      · exact le_trans (hinv.maxc u j hji hrun2) hm7
      · have hj1 : j = i := by omega
        rcases le_or_lt u i with hui | hui
        · obtain ⟨_, hule, hurun⟩ := hq u hui (hj1 ▸ hrun2)
          have hup : prev.index < u := by
            by_contra hup
            push_neg at hup
            exact hinv.noruns prev hprev_mem u last.index hup hprev_lt
              (by omega) hurun
          have h2 := (applyLen_cont_max_ge happ).1
          omega
        · omega
    · -- sb_upto
      intro j hj hjcc
      rcases Nat.lt_or_ge j i with hji | hji
      · exact hinv.sb_upto j hji hjcc
      · have hj1 : j = i := by omega
        subst hj1
        rw [← cyclicChar_eq_getD hjcc]
        exact lenUtf8_bracket hbr

/-- Invariant preservation for any continuing step. -/
theorem inv_step {val : List Char} {i : Nat} {s s' : ScanState}
    (hinv : Inv val i s) (h : step val i s = .cont s') : Inv val (i + 1) s' := by
  by_cases h8 : 1 < lenUtf8 (cyclicChar val i)
  · rw [step_eq_nonByte s h8] at h
    cases h
  push_neg at h8
  have hby : lenUtf8 (cyclicChar val i) = 1 := le_antisymm h8 (lenUtf8_pos _)
  by_cases hbr : is_bracket (cyclicChar val i) = true
  · rcases hop : opening_bracket_to_closing (cyclicChar val i) with _ | b
    · -- closing bracket
      rcases List.eq_nil_or_concat s.brackets with hnil | ⟨front, last, hfl⟩
      · rw [step_eq_mismatch_nil s hbr hop hnil] at h
        by_cases hni : byteLen val ≤ i
        · rw [if_pos hni] at h
          cases h
        · rw [if_neg hni] at h
          simp only [StepRes.cont.injEq] at h
          exact h ▸ inv_step_mismatch hinv hbr hop (Or.inl hnil) (by omega)
      · rw [List.concat_eq_append] at hfl
        rw [step_eq_close_pop s hbr hop hfl] at h
        by_cases hm : last.val = cyclicChar val i
        · rw [if_pos hm] at h
          exact inv_step_matched hinv hbr hop hfl hm h
        · rw [if_neg hm] at h
          by_cases hni : byteLen val ≤ i
          · rw [if_pos hni] at h
            cases h
          · rw [if_neg hni] at h
            simp only [StepRes.cont.injEq] at h
            exact h ▸ inv_step_mismatch hinv hbr hop
              (Or.inr ⟨front, last, hfl, hm⟩) (by omega)
    · -- opening bracket
      rw [step_eq_open s hop] at h
      by_cases hcond : (byteLen val ≤ i ∧
            ((s.brackets.head?.map (fun c => c.index == i - byteLen val)).getD false))
          ∨ s.brackets.length + 1 = byteLen val
      · rw [if_pos hcond] at h
        cases h
      · rw [if_neg hcond] at h
        simp only [StepRes.cont.injEq] at h
        have hsz : s.brackets.length + 1 ≠ byteLen val := fun hc => hcond (Or.inr hc)
        exact h ▸ inv_step_push hinv hop hsz
  · -- filler
    have hf : is_bracket (cyclicChar val i) = false := by simpa using hbr
    rw [step_eq_filler s hf hby] at h
    exact inv_step_filler hinv hf hby h

theorem applyLen_ne_brk {n i : Nat} {s : ScanState} {len : Nat} {sf : ScanState} :
    applyLen n i s len ≠ .brk sf := by
  unfold applyLen
  split_ifs <;> simp

/-- A `break` leaves the best-span scalars as they were. -/
theorem step_brk_max {val : List Char} {i : Nat} {s sf : ScanState}
    (h : step val i s = .brk sf) : sf.max_len = s.max_len ∧ sf.max_end = s.max_end := by
  by_cases h8 : 1 < lenUtf8 (cyclicChar val i)
  · rw [step_eq_nonByte s h8] at h
    cases h
  push_neg at h8
  have hby : lenUtf8 (cyclicChar val i) = 1 := le_antisymm h8 (lenUtf8_pos _)
  by_cases hbr : is_bracket (cyclicChar val i) = true
  · rcases hop : opening_bracket_to_closing (cyclicChar val i) with _ | b
    · rcases List.eq_nil_or_concat s.brackets with hnil | ⟨front, last, hfl⟩
      · rw [step_eq_mismatch_nil s hbr hop hnil] at h
        by_cases hni : byteLen val ≤ i
        · rw [if_pos hni] at h
          simp only [StepRes.brk.injEq] at h
          rw [← h]
          exact ⟨rfl, rfl⟩
        · rw [if_neg hni] at h
          cases h
      · rw [List.concat_eq_append] at hfl
        rw [step_eq_close_pop s hbr hop hfl] at h
        by_cases hm : last.val = cyclicChar val i
        · rw [if_pos hm] at h
          exact absurd h applyLen_ne_brk
        · rw [if_neg hm] at h
          by_cases hni : byteLen val ≤ i
          · rw [if_pos hni] at h
            simp only [StepRes.brk.injEq] at h
            rw [← h]
            exact ⟨rfl, rfl⟩
          · rw [if_neg hni] at h
            cases h
    · rw [step_eq_open s hop] at h
      by_cases hcond : (byteLen val ≤ i ∧
            ((s.brackets.head?.map (fun c => c.index == i - byteLen val)).getD false))
          ∨ s.brackets.length + 1 = byteLen val
      · rw [if_pos hcond] at h
        simp only [StepRes.brk.injEq] at h
        rw [← h]
        exact ⟨rfl, rfl⟩
      · rw [if_neg hcond] at h
        cases h
  · have hf : is_bracket (cyclicChar val i) = false := by simpa using hbr
    rw [step_eq_filler s hf hby] at h
    exact absurd h applyLen_ne_brk

/-- States reachable by the scan loop, together with the next unwrapped index. -/
inductive Reaches (val : List Char) : Nat → ScanState → Prop where
  | init : Reaches val 0 scanInit
  | succ {i : Nat} {s s' : ScanState} : Reaches val i s → i < 2 * byteLen val →
      step val i s = .cont s' → Reaches val (i + 1) s'

theorem reaches_le {val : List Char} {i : Nat} {s : ScanState} (h : Reaches val i s) :
    i ≤ 2 * byteLen val := by
  induction h with
  | init => omega
  | succ hr hlt hs ih => omega

theorem runScan_eq_of_reaches {val : List Char} {i : Nat} {s : ScanState}
    (h : Reaches val i s) :
    runScan val = runFrom val (2 * byteLen val - i) i s := by
  induction h with
  | init => rfl
  | @succ i s s' hr hlt hs ih =>
    rw [ih]
    have he : 2 * byteLen val - i = (2 * byteLen val - (i + 1)) + 1 := by omega
    rw [he]
    simp only [runFrom, hs]

theorem inv_of_reaches {val : List Char} {i : Nat} {s : ScanState}
    (hn : 1 ≤ byteLen val) (h : Reaches val i s) : Inv val i s := by
  induction h with
  | init => exact inv_init hn
  | succ hr hlt hs ih => exact inv_step ih hs

theorem runFrom_finished {val : List Char} :
    ∀ fuel i s sf, runFrom val fuel i s = .finished sf → Reaches val i s →
      i + fuel = 2 * byteLen val →
      ∃ j s₀, Reaches val j s₀ ∧
        ((j = 2 * byteLen val ∧ sf = s₀) ∨
          (j < 2 * byteLen val ∧ step val j s₀ = .brk sf)) := by
  intro fuel
  induction fuel with
  | zero =>
    intro i s sf h hr hfu
    simp only [runFrom, ScanRes.finished.injEq] at h
    exact ⟨i, s, hr, Or.inl ⟨by omega, h.symm⟩⟩
  | succ fuel ih =>
    intro i s sf h hr hfu
    rcases hstep : step val i s with s' | s'' | _ | _
    · simp only [runFrom, hstep] at h
      exact ih (i + 1) s' sf h (Reaches.succ hr (by omega) hstep) (by omega)
    · simp only [runFrom, hstep, ScanRes.finished.injEq] at h
      exact ⟨i, s, hr, Or.inr ⟨by omega, by rw [hstep, h]⟩⟩
    · simp [runFrom, hstep] at h
    · simp [runFrom, hstep] at h

/-- Any finished scan is either fuel exhaustion at a reachable state or a
`break` from a reachable state; either way the best-span scalars of the final
state agree with some reachable invariant-satisfying state. -/
theorem finished_state {val : List Char} {sf : ScanState} (hn : 1 ≤ byteLen val)
    (h : runScan val = .finished sf) :
    ∃ i s₀, Inv val i s₀ ∧ i ≤ 2 * byteLen val ∧
      sf.max_len = s₀.max_len ∧ sf.max_end = s₀.max_end := by
  obtain ⟨j, s₀, hr, hcase⟩ := runFrom_finished (2 * byteLen val) 0 scanInit sf h
    Reaches.init (by omega)
  have hinv := inv_of_reaches hn hr
  rcases hcase with ⟨hj, heq⟩ | ⟨hj, hstep⟩
  · exact ⟨j, s₀, hinv, by omega, by rw [heq], by rw [heq]⟩
  · obtain ⟨h1, h2⟩ := step_brk_max hstep
    exact ⟨j, s₀, hinv, by omega, h1, h2⟩

theorem applyLen_cases (n i : Nat) (s : ScanState) (len : Nat) :
    applyLen n i s len = .inf ∨ ∃ s', applyLen n i s len = .cont s' := by
  unfold applyLen
  split_ifs <;> first
    | exact Or.inl rfl
    | exact Or.inr ⟨_, rfl⟩

/-- In the strict interior of the first lap, with the stack strictly below the
capacity bound, every single-byte step continues. -/
theorem step_cont_of_small {val : List Char} {i : Nat} {s : ScanState}
    (hinv : Inv val i s) (hby : lenUtf8 (cyclicChar val i) = 1)
    (hi1 : i + 1 < byteLen val) (hsz : s.brackets.length + 1 < byteLen val) :
    ∃ s', step val i s = .cont s' := by
  by_cases hbr : is_bracket (cyclicChar val i) = true
  · rcases hop : opening_bracket_to_closing (cyclicChar val i) with _ | b
    · rcases List.eq_nil_or_concat s.brackets with hnil | ⟨front, last, hfl⟩
      · rw [step_eq_mismatch_nil s hbr hop hnil, if_neg (by omega)]
        exact ⟨_, rfl⟩
      · rw [List.concat_eq_append] at hfl
        rw [step_eq_close_pop s hbr hop hfl]
        by_cases hm : last.val = cyclicChar val i
        · rw [if_pos hm]
          have hlen_le : (match front.getLast? with
              | some prev => i - prev.index
              | none => 1 + i - last.index + s.prev_valid_len) ≤ i + 1 := by
            rcases List.eq_nil_or_concat front with hfnil | ⟨fr, prev, hfront⟩
            · subst hfnil
              have hhead : s.brackets.head? = some last := by rw [hfl]; rfl
              have h1 := hinv.pvl_bot last hhead
              have h2 := hinv.entries_lt last (by rw [hfl]; simp)
              simp only [List.getLast?_nil]
              show 1 + i - last.index + s.prev_valid_len ≤ i + 1
              omega
            · rw [List.concat_eq_append] at hfront
              have hg : front.getLast? = some prev := by rw [hfront]; simp
              rw [hg]
              show i - prev.index ≤ i + 1
              omega
          rcases applyLen_cases (byteLen val) i { s with brackets := front }
              (match front.getLast? with
                | some prev => i - prev.index
                | none => 1 + i - last.index + s.prev_valid_len) with hc | hc
          · rw [applyLen_inf_iff] at hc
            omega
          · exact hc
        · rw [if_neg hm, if_neg (by omega)]
          exact ⟨_, rfl⟩
    · rw [step_eq_open s hop]
      rw [if_neg (by
        push_neg
        constructor
        · intro h1
          omega
        · omega)]
      exact ⟨_, rfl⟩
  · have hf : is_bracket (cyclicChar val i) = false := by simpa using hbr
    rw [step_eq_filler s hf hby]
    have hlen_le : (match s.brackets.getLast? with
        | some prev => i - prev.index
        | none => s.prev_valid_len + 1) ≤ i + 1 := by
      rcases List.eq_nil_or_concat s.brackets with hnil | ⟨front, t, hfl⟩
      · have h1 := hinv.pvl_empty hnil
        rw [hnil]
        simp only [List.getLast?_nil]
        show s.prev_valid_len + 1 ≤ i + 1
        omega
      · rw [List.concat_eq_append] at hfl
        have hg : s.brackets.getLast? = some t := by rw [hfl]; simp
        rw [hg]
        show i - t.index ≤ i + 1
        omega
    rcases applyLen_cases (byteLen val) i s
        (match s.brackets.getLast? with
          | some prev => i - prev.index
          | none => s.prev_valid_len + 1) with hc | hc
    · rw [applyLen_inf_iff] at hc
      omega
    · exact hc

/-- Stack size is bounded by the step count. -/
theorem inv_size_le_i {val : List Char} {i : Nat} {s : ScanState} (hinv : Inv val i s) :
    s.brackets.length ≤ i := by
  have hpair := inv_pairwise hinv
  have hlt := hinv.entries_lt
  -- the indices form a strictly increasing list of naturals all below `i`
  have hmono : ∀ k (hk : k < s.brackets.length), k ≤ (s.brackets.get ⟨k, hk⟩).index := by
    intro k
    induction k with
    | zero => omega
    | succ k ihk =>
      intro hk
      have hk' : k < s.brackets.length := by omega
      have h1 := ihk hk'
      have h2 : (s.brackets.get ⟨k, hk'⟩).index < (s.brackets.get ⟨k + 1, hk⟩).index := by
        have := List.pairwise_iff_get.mp hpair ⟨k, hk'⟩ ⟨k + 1, hk⟩ (by simp)
        exact this
      omega
  rcases Nat.eq_zero_or_pos s.brackets.length with h0 | h0
  · omega
  · have hk : s.brackets.length - 1 < s.brackets.length := by omega
    have h1 := hmono (s.brackets.length - 1) hk
    have h2 := hlt (s.brackets.get ⟨s.brackets.length - 1, hk⟩) (List.get_mem _ _ hk)
    omega

theorem byteLen_gt_of_multibyte {val : List Char} (h : ∃ c ∈ val, 1 < lenUtf8 c) :
    val.length < byteLen val := by
  unfold byteLen
  induction val with
  | nil => simp at h
  | cons c rest ih =>
    obtain ⟨c0, hc0, hc0b⟩ := h
    simp only [List.map_cons, List.sum_cons, List.length_cons]
    rcases List.mem_cons.mp hc0 with rfl | hmem
    · have := byteLen_ge_length rest
      unfold byteLen at this
      omega
    · have := ih ⟨c0, hmem, hc0b⟩
      have := lenUtf8_pos c
      omega

/-- A character needing more than one byte makes the whole scan fail: every
step strictly before the first such character continues, and the step at it
returns `NonByteChar`. -/
theorem runScan_nonByte_of_multibyte {val : List Char}
    (h : ∃ c ∈ val, 1 < lenUtf8 c) : runScan val = .nonByte := by
  have hP : ∃ j, j < val.length ∧ 1 < lenUtf8 (val.getD j 'A') := by
    obtain ⟨c, hc, hcb⟩ := h
    obtain ⟨j, hj, hje⟩ := List.mem_iff_getElem.mp hc
    refine ⟨j, hj, ?_⟩
    rw [List.getD_eq_getElem val 'A' hj, hje]
    exact hcb
  classical
  set p := Nat.find hP with hp_def
  obtain ⟨hp_lt, hp_big⟩ := Nat.find_spec hP
  have hmin : ∀ k, k < p → lenUtf8 (val.getD k 'A') = 1 := by
    intro k hk
    have := Nat.find_min hP hk
    push_neg at this
    have h1 := lenUtf8_pos (val.getD k 'A')
    have h2 := this (by omega)
    omega
  have hccn : val.length < byteLen val := byteLen_gt_of_multibyte h
  have hcc1 : 1 ≤ val.length := by omega
  have hn1 : 1 ≤ byteLen val := by omega
  have hreach : ∀ j, j ≤ p → ∃ s, Reaches val j s := by
    intro j
    induction j with
    | zero => exact fun _ => ⟨scanInit, Reaches.init⟩
    | succ j ihj =>
      intro hj
      obtain ⟨s, hr⟩ := ihj (by omega)
      have hinv := inv_of_reaches hn1 hr
      have hch : cyclicChar val j = val.getD j 'A' := cyclicChar_eq_getD (by omega)
      have hby : lenUtf8 (cyclicChar val j) = 1 := by
        rw [hch]
        exact hmin j (by omega)
      have hsz : s.brackets.length + 1 < byteLen val := by
        have := inv_size_le_i hinv
        omega
      obtain ⟨s', hstep⟩ := step_cont_of_small hinv hby (by omega) hsz
      exact ⟨s', Reaches.succ hr (by omega) hstep⟩
  obtain ⟨s, hr⟩ := hreach p le_rfl
  have hch : cyclicChar val p = val.getD p 'A' := cyclicChar_eq_getD hp_lt
  have hstep : step val p s = .nonByte := by
    apply step_eq_nonByte
    rw [hch]
    exact hp_big
  rw [runScan_eq_of_reaches hr]
  have hfuel : 2 * byteLen val - p = (2 * byteLen val - p - 1) + 1 := by omega
  rw [hfuel]
  simp only [runFrom, hstep]

theorem applyLen_ne_nonByte {n i : Nat} {s : ScanState} {len : Nat} :
    applyLen n i s len ≠ .nonByte := by
  unfold applyLen
  split_ifs <;> simp

theorem step_ne_nonByte {val : List Char} {i : Nat} {s : ScanState}
    (hby : lenUtf8 (cyclicChar val i) = 1) : step val i s ≠ .nonByte := by
  intro h
  by_cases hbr : is_bracket (cyclicChar val i) = true
  · rcases hop : opening_bracket_to_closing (cyclicChar val i) with _ | b
    · rcases List.eq_nil_or_concat s.brackets with hnil | ⟨front, last, hfl⟩
      · rw [step_eq_mismatch_nil s hbr hop hnil] at h
        by_cases hni : byteLen val ≤ i
        · rw [if_pos hni] at h; cases h
        · rw [if_neg hni] at h; cases h
      · rw [List.concat_eq_append] at hfl
        rw [step_eq_close_pop s hbr hop hfl] at h
        by_cases hm : last.val = cyclicChar val i
        · rw [if_pos hm] at h
          exact applyLen_ne_nonByte h
        · rw [if_neg hm] at h
          by_cases hni : byteLen val ≤ i
          · rw [if_pos hni] at h; cases h
          · rw [if_neg hni] at h; cases h
    · rw [step_eq_open s hop] at h
      by_cases hcond : (byteLen val ≤ i ∧
            ((s.brackets.head?.map (fun c => c.index == i - byteLen val)).getD false))
          ∨ s.brackets.length + 1 = byteLen val
      · rw [if_pos hcond] at h; cases h
      · rw [if_neg hcond] at h; cases h
  · have hf : is_bracket (cyclicChar val i) = false := by simpa using hbr
    rw [step_eq_filler s hf hby] at h
    exact applyLen_ne_nonByte h

theorem cyclicChar_single_byte {val : List Char} (hsb : ∀ c ∈ val, lenUtf8 c = 1)
    (i : Nat) : lenUtf8 (cyclicChar val i) = 1 := by
  rcases val with _ | ⟨c, rest⟩
  · show lenUtf8 'A' = 1
    decide
  · unfold cyclicChar
    apply hsb
    have hlt : i % (c :: rest).length < (c :: rest).length :=
      Nat.mod_lt _ (by simp)
    rw [List.getD_eq_getElem _ 'A' hlt]
    exact List.getElem_mem hlt

theorem runScan_sb_ne_nonByte {val : List Char} (hsb : ∀ c ∈ val, lenUtf8 c = 1) :
    runScan val ≠ .nonByte := by
  suffices H : ∀ fuel i s, runFrom val fuel i s ≠ .nonByte by exact H _ 0 scanInit
  intro fuel
  induction fuel with
  | zero => intro i s h; cases h
  | succ fuel ih =>
    intro i s h
    rcases hstep : step val i s with s' | s'' | _ | _
    · simp only [runFrom, hstep] at h
      exact ih (i + 1) s' h
    · simp [runFrom, hstep] at h
    · simp [runFrom, hstep] at h
    · exact step_ne_nonByte (cyclicChar_single_byte hsb i) hstep

/-- Bounds satisfied by the state when the loop finishes. -/
theorem finished_bounds {val : List Char} {sf : ScanState}
    (h : runScan val = .finished sf) :
    sf.max_len ≤ sf.max_end ∧ sf.max_end ≤ 2 * byteLen val ∧
    (byteLen val < sf.max_end → sf.max_end - sf.max_len ≤ byteLen val) ∧
    (0 < sf.max_len → validRun val (sf.max_end - sf.max_len) sf.max_end) ∧
    (sf.max_len = 0 → sf.max_end = 0) ∧
    (0 < sf.max_len → sf.max_len < byteLen val) := by
  rcases Nat.eq_zero_or_pos (byteLen val) with h0 | h0
  · have h1 : runScan val = .finished scanInit := by
      unfold runScan
      rw [h0]
      rfl
    rw [h1] at h
    have h2 : scanInit = sf := by
      simpa using h
    rw [← h2]
    refine ⟨le_rfl, by simp [scanInit], by simp [scanInit], by simp [scanInit],
      fun _ => rfl, by simp [scanInit]⟩
  · obtain ⟨i, s₀, hinv, hile, hml, hme⟩ := finished_state h0 h
    rw [hml, hme]
    exact ⟨hinv.max_le, le_trans hinv.maxend_le hile, hinv.wrap, hinv.sound_max,
      hinv.max0, hinv.max_lt⟩

/-- A finished scan implies every character is single-byte. -/
theorem sb_of_not_nonByte {val : List Char} (h : runScan val ≠ .nonByte) :
    ∀ c ∈ val, lenUtf8 c = 1 := by
  intro c hc
  by_contra hne
  have h2 : 1 < lenUtf8 c := by
    have := lenUtf8_pos c
    omega
  exact h (runScan_nonByte_of_multibyte ⟨c, hc, h2⟩)

/-- With the invariant in scope, the byte and character lengths agree as soon
as the scan has visited a whole lap. -/
theorem inv_byteLen_eq {val : List Char} {i : Nat} {s : ScanState}
    (hinv : Inv val i s) (hi : val.length < i) : byteLen val = val.length := by
  apply byteLen_eq_length
  intro j hj
  exact hinv.sb_upto j (by omega) hj

theorem inv_maxlen_le_2cc {val : List Char} {i : Nat} {s : ScanState}
    (hinv : Inv val i s) (hile : i ≤ 2 * byteLen val) :
    s.max_len ≤ 2 * val.length := by
  have h1 : s.max_len ≤ i := le_trans hinv.max_le hinv.maxend_le
  rcases le_or_lt i val.length with h2 | h2
  · omega
  · have h3 := inv_byteLen_eq hinv h2
    omega

theorem inv_stack_le_cc {val : List Char} {i : Nat} {s : ScanState}
    (hinv : Inv val i s) : s.brackets.length ≤ val.length := by
  have h1 := inv_size_le_i hinv
  rcases le_or_lt i val.length with h2 | h2
  · omega
  · have h3 := inv_byteLen_eq hinv h2
    have := hinv.size
    omega

theorem byteLen_eq_length_mem {val : List Char} (hsb : ∀ c ∈ val, lenUtf8 c = 1) :
    byteLen val = val.length := by
  apply byteLen_eq_length
  intro j hj
  apply hsb
  rw [List.getD_eq_getElem val 'A' hj]
  exact List.getElem_mem hj

/-- The wrap-case reconstruction equals the cyclic span it is meant to denote. -/
theorem wrap_slice_eq_span {val : List Char} {me ml : Nat}
    (hcc : byteLen val = val.length)
    (hwrap : byteLen val < me) (hml : ml ≤ me) (hstart : me - ml ≤ byteLen val)
    (hme : me ≤ 2 * byteLen val) :
    val.drop (me - ml) ++ val.take (me - byteLen val) = spanAt val (me - ml) ml := by
  set a := me - ml with ha
  have h1 : ml = (byteLen val - a) + (me - byteLen val) := by omega
  rw [h1, spanAt_add]
  have e1 : a + (byteLen val - a) = byteLen val := by omega
  rw [e1]
  have h2 : spanAt val a (byteLen val - a) = (val.drop a).take (byteLen val - a) := by
    apply spanAt_eq_slice
    omega
  have h3 : (val.drop a).take (byteLen val - a) = val.drop a := by
    apply List.take_of_length_le
    simp
    omega
  have h4 : spanAt val (byteLen val) (me - byteLen val)
      = spanAt val 0 (me - byteLen val) := by
    have hsh := @spanAt_shift val (byteLen val) (me - byteLen val) (by omega)
    rw [hsh, hcc, Nat.sub_self]
  have h5 : spanAt val 0 (me - byteLen val) = val.take (me - byteLen val) := by
    rw [spanAt_eq_slice (by omega)]
    simp
  rw [h2, h3, h4, h5]

/-- Claim C3: when the scan loop ends without an early Infinite return and
without an error (`runScan val = .finished sf`), the returned string is the
non-wrapped slice `input[max_end − max_len .. max_end]` when `max_end` is
within the input length, and otherwise the concatenation
`input[max_end − max_len .. length] ++ input[0 .. max_end − length]`; in the
wrapping case the reconstruction is a contiguous run of the cyclic reading
(`spanAt`) of the input. -/
theorem c3_reconstruction (val : List Char) (sf : ScanState)
    (h : runScan val = .finished sf) :
    create_longest_substring val =
      .ok (if byteLen val < sf.max_end then
            val.drop (sf.max_end - sf.max_len) ++ val.take (sf.max_end - byteLen val)
          else
            (val.drop (sf.max_end - sf.max_len)).take sf.max_len) ∧
    (byteLen val < sf.max_end →
      val.drop (sf.max_end - sf.max_len) ++ val.take (sf.max_end - byteLen val)
        = spanAt val (sf.max_end - sf.max_len) sf.max_len) := by
  constructor
  · unfold create_longest_substring
    rw [h]
  · intro hwrap
    obtain ⟨hb1, hb2, hb3, _, _, _⟩ := finished_bounds h
    have hsb : ∀ c ∈ val, lenUtf8 c = 1 :=
      sb_of_not_nonByte (by rw [h]; intro hc; cases hc)
    exact wrap_slice_eq_span (byteLen_eq_length_mem hsb) hwrap hb1 (hb3 hwrap) hb2

/-- Witness for C3 at the wrap-around example input `"ab()(d"`. -/
theorem c3_reconstruction_witness :
    create_longest_substring "ab()(d".toList =
      .ok (if byteLen "ab()(d".toList < (10 : Nat) then
            "ab()(d".toList.drop (10 - 5) ++ "ab()(d".toList.take (10 - byteLen "ab()(d".toList)
          else
            ("ab()(d".toList.drop (10 - 5)).take 5) ∧
    (byteLen "ab()(d".toList < (10 : Nat) →
      "ab()(d".toList.drop (10 - 5) ++ "ab()(d".toList.take (10 - byteLen "ab()(d".toList)
        = spanAt "ab()(d".toList (10 - 5) 5) :=
  c3_reconstruction "ab()(d".toList ⟨[⟨')', 4⟩], 10, 5, 4⟩ (by decide)

/-- Claim C8: on single-byte inputs the scanner is total: it returns `Ok`
(no failure mode other than `NonByteChar` exists, and that one cannot fire),
and whenever the loop ends the slicing bounds hold:
`max_len ≤ max_end ≤ 2·length`, and in the wrap case both
`max_end − max_len ≤ length` and `max_end − length ≤ length`, so every slice
index of the final reconstruction is in bounds (single-byte characters make
byte offsets equal character offsets, so all slicing is on character
boundaries). -/
theorem c8_single_byte_total (val : List Char) (hsb : ∀ c ∈ val, lenUtf8 c = 1) :
    (∃ w, create_longest_substring val = .ok w) ∧
    (∀ sf, runScan val = .finished sf →
      sf.max_len ≤ sf.max_end ∧ sf.max_end ≤ 2 * byteLen val ∧
      (byteLen val < sf.max_end →
        sf.max_end - sf.max_len ≤ byteLen val ∧
        sf.max_end - byteLen val ≤ byteLen val)) := by
  constructor
  · rcases hres : runScan val with sf | _ | _
    · exact ⟨_, by unfold create_longest_substring; rw [hres]⟩
    · exact ⟨_, by unfold create_longest_substring; rw [hres]⟩
    · exact absurd hres (runScan_sb_ne_nonByte hsb)
  · intro sf h
    obtain ⟨hb1, hb2, hb3, _, _, _⟩ := finished_bounds h
    exact ⟨hb1, hb2, fun hw => ⟨hb3 hw, by omega⟩⟩

/-- Witness for C8 at the input `"ab()(d"`. -/
theorem c8_single_byte_total_witness :
    (∃ w, create_longest_substring "ab()(d".toList = .ok w) ∧
    (∀ sf, runScan "ab()(d".toList = .finished sf →
      sf.max_len ≤ sf.max_end ∧ sf.max_end ≤ 2 * byteLen "ab()(d".toList ∧
      (byteLen "ab()(d".toList < sf.max_end →
        sf.max_end - sf.max_len ≤ byteLen "ab()(d".toList ∧
        sf.max_end - byteLen "ab()(d".toList ≤ byteLen "ab()(d".toList)) :=
  c8_single_byte_total "ab()(d".toList (by decide)

/-- Claim C2: any input containing a character that needs more than one byte
to encode is rejected with `NonByteChar`, regardless of the character's
position, and no partial result is produced. -/
theorem c2_multibyte_rejection (val : List Char) (h : ∃ c ∈ val, 1 < lenUtf8 c) :
    create_longest_substring val = .error .NonByteChar := by
  unfold create_longest_substring
  rw [runScan_nonByte_of_multibyte h]

/-- Witness for C2 at the test input `"🦅"`. -/
theorem c2_multibyte_rejection_witness :
    create_longest_substring "🦅".toList = .error .NonByteChar :=
  c2_multibyte_rejection "🦅".toList ⟨'🦅', by decide, by decide⟩

/-- Counterexample to C4 as stated: at input `"("`, index 0, the initial
state, the scanner stops without pushing (the code's condition
`brackets.len() + 1 == val.len()` holds with zero pending opens), although the
claim's condition — as many opens pending as characters, or the wrap
condition — is false (no opens are pending and the index is below the
length). -/
theorem c4_counterexample :
    step ['('] 0 scanInit = .brk scanInit ∧
    ¬ (scanInit.brackets.length = (['('] : List Char).length ∨
        ((['('] : List Char).length ≤ 0 ∧
          ((scanInit.brackets.head?.map
            (fun e => e.index == 0 - (['('] : List Char).length)).getD false) = true)) := by
  decide

/-- Claim C4 (amended): on an opening bracket the scanner stops scanning
without pushing exactly when the number of pending opens plus one equals the
number of characters of the input, or when the unwrapped index is at least
the input length and the first pending open's origin index equals the
unwrapped index minus the input length; otherwise it pushes
`(matching closer, index)` and produces no candidate length. -/
theorem c4_open_step (val : List Char) (i : Nat) (s : ScanState) (b : Char)
    (hsb : ∀ c ∈ val, lenUtf8 c = 1)
    (ho : opening_bracket_to_closing (cyclicChar val i) = some b) :
    (step val i s = .brk s ↔
      (s.brackets.length + 1 = val.length ∨
        (val.length ≤ i ∧
          ((s.brackets.head?.map
            (fun e => e.index == i - val.length)).getD false) = true))) ∧
    (¬ (s.brackets.length + 1 = val.length ∨
        (val.length ≤ i ∧
          ((s.brackets.head?.map
            (fun e => e.index == i - val.length)).getD false) = true)) →
      step val i s = .cont { s with brackets := s.brackets ++ [⟨b, i⟩] }) := by
  have hbe := byteLen_eq_length_mem hsb
  rw [step_eq_open s ho, hbe]
  by_cases hcond : (val.length ≤ i ∧
      ((s.brackets.head?.map (fun e => e.index == i - val.length)).getD false))
      ∨ s.brackets.length + 1 = val.length
  · rw [if_pos hcond]
    constructor
    · constructor
      · intro _
        tauto
      · intro _
        rfl
    · intro hnc
      exact absurd (by tauto) hnc
  · rw [if_neg hcond]
    constructor
    · constructor
      · intro hc
        cases hc
      · intro hc
        exact absurd (by tauto) hcond
    · intro _
      rfl

/-- Witness for the amended C4: at input `"("`, index 0, initial state, the
stop condition `pending + 1 = length` fires and the scanner breaks. -/
theorem c4_open_step_witness : step ['('] 0 scanInit = .brk scanInit :=
  ((c4_open_step ['('] 0 scanInit ')' (by decide) (by decide)).1).mpr
    (Or.inl (by decide))

/-- Claim C5: on a closing bracket with an empty stack, or whose popped entry
expects a different closer, the scanner resets `prev_valid_len` to 0, clears
the stack, keeps the best-span scalars (no candidate length), and stops
scanning if and only if the unwrapped index has reached one full input
length. -/
theorem c5_mismatch_step (val : List Char) (i : Nat) (s : ScanState)
    (hsb : ∀ c ∈ val, lenUtf8 c = 1)
    (hbr : is_bracket (cyclicChar val i) = true)
    (hn : opening_bracket_to_closing (cyclicChar val i) = none)
    (hmm : s.brackets.getLast? = none ∨
      ∃ last, s.brackets.getLast? = some last ∧ last.val ≠ cyclicChar val i) :
    step val i s = if val.length ≤ i
      then .brk ⟨[], s.max_end, s.max_len, 0⟩
      else .cont ⟨[], s.max_end, s.max_len, 0⟩ := by
  have hbe := byteLen_eq_length_mem hsb
  rcases hmm with hnil | ⟨last, hlast, hne⟩
  · rw [step_eq_mismatch_nil s hbr hn (List.getLast?_eq_none_iff.mp hnil), hbe]
    rfl
  · rcases List.eq_nil_or_concat s.brackets with hnil2 | ⟨front, last2, hfl⟩
    · rw [hnil2] at hlast
      cases hlast
    · rw [List.concat_eq_append] at hfl
      have hl2 : last2 = last := by
        have : s.brackets.getLast? = some last2 := by rw [hfl]; simp
        rw [this] at hlast
        exact Option.some_inj.mp hlast
      subst hl2
      rw [step_eq_close_pop s hbr hn hfl, if_neg hne, hbe]
      rfl

/-- Witness for C5 at input `")"`, index 0, initial state: the stack is empty,
the state resets and the scanner continues (index 0 < length 1). -/
theorem c5_mismatch_step_witness : step [')'] 0 scanInit = .cont ⟨[], 0, 0, 0⟩ := by
  have h := c5_mismatch_step [')'] 0 scanInit (by decide) (by decide) (by decide)
    (Or.inl (by decide))
  rw [h, if_neg (by decide)]
  rfl

theorem cyclicChar_mem {val : List Char} (hne : val ≠ []) (i : Nat) :
    cyclicChar val i ∈ val := by
  unfold cyclicChar
  have hlt : i % val.length < val.length := by
    apply Nat.mod_lt
    rcases val with _ | ⟨c, rest⟩
    · exact absurd rfl hne
    · simp
  rw [List.getD_eq_getElem val 'A' hlt]
  exact List.getElem_mem hlt

theorem applyLen_empty_update {n i pvl maxl maxe len : Nat}
    (h1 : maxl < len) (h2 : len < n) :
    applyLen n i ⟨[], maxe, maxl, pvl⟩ len = .cont ⟨[], i + 1, len, len⟩ := by
  unfold applyLen
  rw [if_neg (fun hc => absurd hc.2 (by omega)), if_pos (by exact h1)]
  rfl

/-- Claim C6: every nonempty all-filler single-byte input reports Infinite:
the scan reaches the state `⟨[], j, j, j⟩` before step `j` for every `j` below
the length, and at the last index of the first lap the candidate length
equals the input length, triggering the immediate Infinite return. -/
theorem c6_filler_infinite (val : List Char) (hne : val ≠ [])
    (hfill : ∀ c ∈ val, is_bracket c = false)
    (hsb : ∀ c ∈ val, lenUtf8 c = 1) :
    runScan val = .infinite ∧
      create_longest_substring val = .ok "Infinite".toList := by
  have hbe := byteLen_eq_length_mem hsb
  have hcc1 : 1 ≤ val.length := by
    rcases val with _ | _
    · exact absurd rfl hne
    · simp
  have hn1 : 1 ≤ byteLen val := by omega
  have hstep : ∀ j, j + 1 < byteLen val →
      step val j ⟨[], j, j, j⟩ = .cont ⟨[], j + 1, j + 1, j + 1⟩ := by
    intro j hj
    have hf := hfill _ (cyclicChar_mem hne j)
    have hby := hsb _ (cyclicChar_mem hne j)
    rw [step_eq_filler _ hf hby]
    have : (match (⟨[], j, j, j⟩ : ScanState).brackets.getLast? with
        | some prev => j - prev.index
        | none => (⟨[], j, j, j⟩ : ScanState).prev_valid_len + 1) = j + 1 := rfl
    rw [this]
    exact applyLen_empty_update (by omega) (by omega)
  have hreach : ∀ j, j < byteLen val → Reaches val j ⟨[], j, j, j⟩ := by
    intro j
    induction j with
    | zero => exact fun _ => Reaches.init
    | succ j ihj =>
      intro hj
      exact Reaches.succ (ihj (by omega)) (by omega) (hstep j hj)
  have hlast := hreach (byteLen val - 1) (by omega)
  have hinf : step val (byteLen val - 1)
      ⟨[], byteLen val - 1, byteLen val - 1, byteLen val - 1⟩ = .inf := by
    have hf := hfill _ (cyclicChar_mem hne (byteLen val - 1))
    have hby := hsb _ (cyclicChar_mem hne (byteLen val - 1))
    rw [step_eq_filler _ hf hby]
    have : (match (⟨[], byteLen val - 1, byteLen val - 1, byteLen val - 1⟩
          : ScanState).brackets.getLast? with
        | some prev => byteLen val - 1 - prev.index
        | none => (⟨[], byteLen val - 1, byteLen val - 1, byteLen val - 1⟩
          : ScanState).prev_valid_len + 1) = byteLen val - 1 + 1 := rfl
    rw [this]
    rw [applyLen_inf_iff]
    constructor
    · show byteLen val - 1 < byteLen val - 1 + 1
      omega
    · omega
  have hrs : runScan val = .infinite := by
    rw [runScan_eq_of_reaches hlast]
    have hfuel : 2 * byteLen val - (byteLen val - 1)
        = (2 * byteLen val - (byteLen val - 1) - 1) + 1 := by omega
    rw [hfuel]
    simp only [runFrom, hinf]
  refine ⟨hrs, ?_⟩
  unfold create_longest_substring
  rw [hrs]

/-- Witness for C6 at the test input `"abc"`. -/
theorem c6_filler_infinite_witness :
    runScan "abc".toList = .infinite ∧
      create_longest_substring "abc".toList = .ok "Infinite".toList :=
  c6_filler_infinite "abc".toList (by decide) (by decide) (by decide)

/-- Claim C9: at every reachable point of the scan the pending-opens stack has
strictly increasing origin indices from bottom to top (so the top entry is the
most recently opened, not-yet-closed bracket — its index is maximal and below
the current scan index), and the stack never exceeds the input's length in
entries. -/
theorem c9_stack_invariant (val : List Char) (i : Nat) (s : ScanState)
    (h : Reaches val i s) :
    List.Chain' (fun p q : CharPos => p.index < q.index) s.brackets ∧
    (∀ e ∈ s.brackets, e.index < i) ∧
    s.brackets.length ≤ val.length := by
  rcases Nat.eq_zero_or_pos (byteLen val) with h0 | h0
  · cases h with
    | init => exact ⟨List.chain'_nil, by simp [scanInit], by simp [scanInit]⟩
    | succ hr hlt hs => omega
  · have hinv := inv_of_reaches h0 h
    exact ⟨hinv.chain.imp (fun a b hh => hh.1), hinv.entries_lt, inv_stack_le_cc hinv⟩

/-- Witness for C9 at input `"(("` after one step. -/
theorem c9_stack_invariant_witness :
    List.Chain' (fun p q : CharPos => p.index < q.index)
      (⟨[⟨')', 0⟩], 0, 0, 0⟩ : ScanState).brackets ∧
    (∀ e ∈ (⟨[⟨')', 0⟩], 0, 0, 0⟩ : ScanState).brackets, e.index < 1) ∧
    (⟨[⟨')', 0⟩], 0, 0, 0⟩ : ScanState).brackets.length ≤ "((".toList.length :=
  c9_stack_invariant "((".toList 1 ⟨[⟨')', 0⟩], 0, 0, 0⟩
    (Reaches.succ Reaches.init (by decide) (by decide))

/-- Claim C10: throughout the scan and at its end, `max_len` never exceeds
twice the input length. -/
theorem c10_maxlen_bound (val : List Char) :
    (∀ i s, Reaches val i s → s.max_len ≤ 2 * val.length) ∧
    (∀ sf, runScan val = .finished sf → sf.max_len ≤ 2 * val.length) := by
  constructor
  · intro i s h
    rcases Nat.eq_zero_or_pos (byteLen val) with h0 | h0
    · cases h with
      | init => simp [scanInit]
      | succ hr hlt hs => omega
    · exact inv_maxlen_le_2cc (inv_of_reaches h0 h) (reaches_le h)
  · intro sf h
    rcases Nat.eq_zero_or_pos (byteLen val) with h0 | h0
    · have h1 : runScan val = .finished scanInit := by
        unfold runScan
        rw [h0]
        rfl
      rw [h1] at h
      have h2 : scanInit = sf := by simpa using h
      rw [← h2]
      simp [scanInit]
    · obtain ⟨i, s₀, hinv, hile, hml, _⟩ := finished_state h0 h
      rw [hml]
      exact inv_maxlen_le_2cc hinv hile

/-- Witness for C10 at input `"ab()(d"` and its final state. -/
theorem c10_maxlen_bound_witness :
    (5 : Nat) ≤ 2 * "ab()(d".toList.length := by
  have h := (c10_maxlen_bound "ab()(d".toList).2 ⟨[⟨')', 4⟩], 10, 5, 4⟩ (by decide)
  exact h

/-- A `break` inside the first lap can only come from the opening-bracket
capacity condition. -/
theorem step_brk_first_lap {val : List Char} {j : Nat} {s sf : ScanState}
    (h : step val j s = .brk sf) (hj : j < byteLen val) :
    ∃ b, opening_bracket_to_closing (cyclicChar val j) = some b ∧
      s.brackets.length + 1 = byteLen val := by
  by_cases h8 : 1 < lenUtf8 (cyclicChar val j)
  · rw [step_eq_nonByte s h8] at h
    cases h
  push_neg at h8
  have hby := le_antisymm h8 (lenUtf8_pos _)
  by_cases hbr : is_bracket (cyclicChar val j) = true
  · rcases hop : opening_bracket_to_closing (cyclicChar val j) with _ | b
    · rcases List.eq_nil_or_concat s.brackets with hnil | ⟨front, last, hfl⟩
      · rw [step_eq_mismatch_nil s hbr hop hnil, if_neg (by omega)] at h
        cases h
      · rw [List.concat_eq_append] at hfl
        rw [step_eq_close_pop s hbr hop hfl] at h
        by_cases hm : last.val = cyclicChar val j
        · rw [if_pos hm] at h
          exact absurd h applyLen_ne_brk
        · rw [if_neg hm, if_neg (by omega)] at h
          cases h
    · rw [step_eq_open s hop] at h
      by_cases hcond : (byteLen val ≤ j ∧
            ((s.brackets.head?.map (fun c => c.index == j - byteLen val)).getD false))
          ∨ s.brackets.length + 1 = byteLen val
      · rcases hcond with ⟨h1, _⟩ | h2
        · omega
        · exact ⟨b, rfl, h2⟩

      · rw [if_neg hcond] at h
        cases h
  · have hf : is_bracket (cyclicChar val j) = false := by simpa using hbr
    rw [step_eq_filler s hf hby] at h
    exact absurd h applyLen_ne_brk

/-- Scanning a nonempty balanced single-byte string always reports Infinite:
the whole string is a valid run of the length of the input, so either a
candidate of that length fires, or the only possible first-lap break (the
opening capacity condition at the last index) would force the string to end
with an opening bracket, contradicting balancedness. -/
theorem balanced_scan_infinite (w : List Char) (hwne : w ≠ [])
    (hsb : ∀ c ∈ w, lenUtf8 c = 1) (hbal : balancedB w = true) :
    runScan w = .infinite := by
  have hbe := byteLen_eq_length_mem hsb
  have hcc1 : 1 ≤ w.length := by
    rcases w with _ | ⟨c, rest⟩
    · exact absurd rfl hwne
    · simp
  have hn1 : 1 ≤ byteLen w := by omega
  have hfull : spanAt w 0 (byteLen w) = w := by
    rw [hbe, spanAt_eq_slice (by omega)]
    simp
  have hvr : validRun w 0 (byteLen w) := by
    unfold validRun
    rw [Nat.sub_zero, hfull]
    exact hbal
  rcases hres : runScan w with sf | _ | _
  · exfalso
    obtain ⟨j, s₀, hr, hcase⟩ :=
      runFrom_finished _ 0 scanInit sf hres Reaches.init (by omega)
    have hinv := inv_of_reaches hn1 hr
    have hcontra_ge : byteLen w ≤ j → False := by
      intro hjn
      have hmx := hinv.maxc 0 (byteLen w - 1) (by omega) (by
        have he : byteLen w - 1 + 1 = byteLen w := by omega
        rw [he]
        exact hvr)
      have := hinv.max_lt (by omega)
      omega
    rcases hcase with ⟨hj, _⟩ | ⟨hj, hstep⟩
    · exact hcontra_ge (by omega)
    · rcases le_or_lt (byteLen w) j with hjn | hjn
      · exact hcontra_ge hjn
      · obtain ⟨b, hop, hsz⟩ := step_brk_first_lap hstep hjn
        have hsize_le := inv_size_le_i hinv
        have hj_eq : j = byteLen w - 1 := by omega
        have h2 : byteLen w = (byteLen w - 1) + 1 := by omega
        have hw_split : w = spanAt w 0 (byteLen w - 1)
            ++ [cyclicChar w (byteLen w - 1)] := by
          conv_lhs => rw [← hfull]
          conv_lhs => rw [h2]
          rw [spanAt_succ]
          simp
        have hopen : opening_bracket_to_closing (cyclicChar w (byteLen w - 1))
            = some b := by
          rw [← hj_eq]
          exact hop
        have hnb := not_balancedB_append_opening (l := spanAt w 0 (byteLen w - 1)) hopen
        rw [← hw_split] at hnb
        rw [hnb] at hbal
        cases hbal
  · rfl
  · exact absurd hres (runScan_sb_ne_nonByte hsb)

/-- Any finite success value is a balanced span made of single-byte
characters of the input. -/
theorem ok_result_balanced {val w : List Char}
    (h : create_longest_substring val = .ok w) (hne : w ≠ "Infinite".toList) :
    balancedB w = true ∧ ∀ c ∈ w, lenUtf8 c = 1 := by
  unfold create_longest_substring at h
  rcases hres : runScan val with sf | _ | _ <;> rw [hres] at h
  · simp only [Except.ok.injEq] at h
    have hsb := sb_of_not_nonByte (by rw [hres]; intro hc; cases hc)
    have hbe := byteLen_eq_length_mem hsb
    obtain ⟨hb1, hb2, hb3, hsound, hmax0, _⟩ := finished_bounds hres
    constructor
    · rcases Nat.eq_zero_or_pos sf.max_len with hml0 | hmlpos
      · have hme0 := hmax0 hml0
        have hval : (if byteLen val < sf.max_end then
              val.drop (sf.max_end - sf.max_len) ++ val.take (sf.max_end - byteLen val)
            else (val.drop (sf.max_end - sf.max_len)).take sf.max_len) = [] := by
          rw [if_neg (by omega), hml0]
          simp
        rw [← h, hval]
        rfl
      · have hvr := hsound hmlpos
        have hspan : (if byteLen val < sf.max_end then
              val.drop (sf.max_end - sf.max_len) ++ val.take (sf.max_end - byteLen val)
            else (val.drop (sf.max_end - sf.max_len)).take sf.max_len)
            = spanAt val (sf.max_end - sf.max_len) sf.max_len := by
          by_cases hw : byteLen val < sf.max_end
          · rw [if_pos hw]
            exact wrap_slice_eq_span hbe hw hb1 (hb3 hw) hb2
          · rw [if_neg hw]
            exact (spanAt_eq_slice (by omega)).symm
        rw [← h, hspan]
        unfold validRun at hvr
        have he : sf.max_end - (sf.max_end - sf.max_len) = sf.max_len := by omega
        rw [he] at hvr
        exact hvr
    · intro c hc
      rw [← h] at hc
      apply hsb
      split at hc
      · rcases List.mem_append.mp hc with h1 | h1
        · exact List.mem_of_mem_drop h1
        · exact List.mem_of_mem_take h1
      · exact List.mem_of_mem_drop (List.mem_of_mem_take hc)
  · simp only [Except.ok.injEq] at h
    exact absurd h.symm hne
  · cases h

/-- Claim C7: if the scanner returns a finite answer `w` (not the literal
Infinite), then `w` is itself a fully balanced/valid span, and running the
scanner on `w` succeeds with either Infinite or a string at least as long
(in fact: Infinite for nonempty `w`, and the empty string for empty `w`). -/
theorem c7_idempotent (val w : List Char)
    (h : create_longest_substring val = .ok w) (hne : w ≠ "Infinite".toList) :
    balancedB w = true ∧
    ∃ u, create_longest_substring w = .ok u ∧
      (u = "Infinite".toList ∨ w.length ≤ u.length) := by
  obtain ⟨hbal, hwsb⟩ := ok_result_balanced h hne
  refine ⟨hbal, ?_⟩
  rcases eq_or_ne w [] with rfl | hwne
  · exact ⟨[], rfl, Or.inr le_rfl⟩
  · have hinf := balanced_scan_infinite w hwne hwsb hbal
    refine ⟨"Infinite".toList, ?_, Or.inl rfl⟩
    unfold create_longest_substring
    rw [hinf]

/-- Witness for C7 at the test input `"))[(("` with finite answer `"(())"`. -/
theorem c7_idempotent_witness :
    balancedB "(())".toList = true ∧
    ∃ u, create_longest_substring "(())".toList = .ok u ∧
      (u = "Infinite".toList ∨ "(())".toList.length ≤ u.length) :=
  c7_idempotent "))[((".toList "(())".toList (by rfl) (by decide)

/-- No span of the cyclic reading of `"]Infinite("` with length at least the
input length is balanced: any such span either ends at the `'('` (an
unclosed open) or contains the adjacent mismatched pair `'('`,`']'` across
the wrap point. -/
theorem c1_no_long_span (s L : Nat) (hL : 10 ≤ L) :
    balancedB (spanAt "]Infinite(".toList s L) = false := by
  have hlen : ("]Infinite(".toList).length = 10 := by rfl
  set d := 9 - s % 10 with hd
  have hd9 : d ≤ 9 := by omega
  have hk9 : (s + d) % 10 = 9 := by omega
  have hk0 : (s + d + 1) % 10 = 0 := by omega
  have hck : cyclicChar "]Infinite(".toList (s + d) = '(' := by
    unfold cyclicChar
    rw [hlen, hk9]
    rfl
  have hck1 : cyclicChar "]Infinite(".toList (s + d + 1) = ']' := by
    unfold cyclicChar
    rw [hlen, hk0]
    rfl
  rcases eq_or_lt_of_le (show d + 1 ≤ L by omega) with heq | hlt
  · have hsp : spanAt "]Infinite(".toList s L
        = spanAt "]Infinite(".toList s d ++ [cyclicChar "]Infinite(".toList (s + d)] := by
      conv_lhs => rw [← heq]
      rw [spanAt_succ]
    rw [hsp, hck]
    exact not_balancedB_append_opening (b := ')') (by decide)
  · have hdecomp : L = d + (1 + (1 + (L - d - 2))) := by omega
    have h1 : spanAt "]Infinite(".toList s L
        = spanAt "]Infinite(".toList s d
          ++ spanAt "]Infinite(".toList (s + d) (1 + (1 + (L - d - 2))) := by
      conv_lhs => rw [hdecomp]
      rw [spanAt_add]
    have h2 : spanAt "]Infinite(".toList (s + d) (1 + (1 + (L - d - 2)))
        = [cyclicChar "]Infinite(".toList (s + d)]
          ++ spanAt "]Infinite(".toList (s + d + 1) (1 + (L - d - 2)) := by
      rw [spanAt_add, spanAt_one]
    have h3 : spanAt "]Infinite(".toList (s + d + 1) (1 + (L - d - 2))
        = [cyclicChar "]Infinite(".toList (s + d + 1)]
          ++ spanAt "]Infinite(".toList (s + d + 1 + 1) (L - d - 2) := by
      rw [spanAt_add, spanAt_one]
    rw [h1, h2, h3, hck, hck1]
    have hfin := not_balancedB_open_close_mismatch
      (A := spanAt "]Infinite(".toList s d)
      (B := spanAt "]Infinite(".toList (s + d + 1 + 1) (L - d - 2))
      (o := '(') (c := ']') (b := ')') (by decide) (by decide) (by decide) (by decide)
    simpa using hfin

/-- Claim C1 (failing input): for the all-single-byte input `"]Infinite("`
the code returns `Ok "Infinite"` although no unboundedly long valid span
exists in the cyclic reading — every span of length ≥ 10 (the input length)
is invalid, so valid spans are bounded — and the longest finite valid span is
the literal 8-character substring `"Infinite"` itself.  The in-band sentinel
makes the two success meanings of the claim indistinguishable, so the
"exactly when" of the claim fails on this input. -/
theorem c1_sentinel_collision :
    create_longest_substring "]Infinite(".toList = .ok ("Infinite".toList) ∧
    spanAt "]Infinite(".toList 1 8 = "Infinite".toList ∧
    balancedB (spanAt "]Infinite(".toList 1 8) = true ∧
    ∀ s L, 10 ≤ L → balancedB (spanAt "]Infinite(".toList s L) = false :=
  ⟨by rfl, by rfl, by rfl, fun s L hL => c1_no_long_span s L hL⟩

/-- Witness for C1: an instance of the universally quantified component. -/
theorem c1_sentinel_collision_witness :
    balancedB (spanAt "]Infinite(".toList 3 12) = false :=
  c1_sentinel_collision.2.2.2 3 12 (by decide)
